import Mathlib

/-!
Verification development for `cargo-localize` (`src/main.rs`): a shallow
embedding of the dependency-vendoring and manifest-rewriting pipeline.

Paths are modelled as lists of components (`List String`), machine state as an
explicit record of the files, backup sidecars, `.orig` sidecars, vendor-root
subdirectories and lock-file presence the program reads or writes.  Manifest
file contents are modelled at the parsed-document level (`FileContent.toml`),
with `FileContent.raw` standing for unparseable content, since the external
`toml_edit` library round-trips unmodified regions verbatim.  Fallible
operations return the partial state together with an `Except` outcome, because
the real program mutates the filesystem in place and an error leaves all
earlier mutations on disk.
-/

namespace CargoLocalize

/-! ### Ordered association lists

These mirror the ordered-map behaviour of the external map types the program
relies on: `toml_edit` tables and inline tables replace the value in place
when a key is inserted over an existing key (keeping its position) and append
new keys at the end; `remove` deletes the keyed entry. -/

def lookupA {κ α : Type} [DecidableEq κ] (k : κ) : List (κ × α) → Option α
  | [] => none
  | (k', v) :: rest => if k' = k then some v else lookupA k rest

def upsert {κ α : Type} [DecidableEq κ] (k : κ) (v : α) : List (κ × α) → List (κ × α)
  | [] => [(k, v)]
  | (k', v') :: rest => if k' = k then (k, v) :: rest else (k', v') :: upsert k v rest

def eraseA {κ α : Type} [DecidableEq κ] (k : κ) : List (κ × α) → List (κ × α)
  | [] => []
  | (k', v) :: rest => if k' = k then eraseA k rest else (k', v) :: eraseA k rest

def erasePath (p : List String) : List (List String) → List (List String)
  | [] => []
  | q :: rest => if q = p then erasePath p rest else q :: erasePath p rest

/-! ### TOML dependency-entry model

`update_dependencies` in the source distinguishes three editable shapes of a
dependency entry plus a catch-all that is left untouched. -/

inductive TomlValue : Type
  | str (s : String)
  | strArr (xs : List String)
  | boolV (b : Bool)
  deriving DecidableEq, Repr

abbrev Fields := List (String × TomlValue)

inductive DepEntry : Type
  | shorthand (version : String)
  | inlineRecord (fields : Fields)
  | blockRecord (fields : Fields)
  | other
  deriving DecidableEq, Repr

/-- The three dependency sections visited by `update_single_cargo_toml`;
an absent section is modelled as the empty table. -/
structure DepTables : Type where
  dependencies : List (String × DepEntry)
  dev_dependencies : List (String × DepEntry)
  build_dependencies : List (String × DepEntry)
  deriving DecidableEq, Repr

/-- A parsed manifest: top-level dependency tables plus the per-platform
`[target.*]` blocks, each holding the same three section kinds.  Regions the
program never touches are not represented; `toml_edit` preserves them. -/
structure ManifestDoc : Type where
  tables : DepTables
  target : List (String × DepTables)
  deriving DecidableEq, Repr

/-- On-disk file content: a parseable manifest, or raw bytes that fail to
parse as TOML. -/
inductive FileContent : Type
  | toml (d : ManifestDoc)
  | raw (s : String)
  deriving DecidableEq, Repr

/-! ### Metadata model (`cargo_metadata`) -/

structure Package : Type where
  id : String
  name : String
  version : String
  manifest_path : List String
  deriving DecidableEq, Repr

structure Node : Type where
  id : String
  features : List String
  deriving DecidableEq, Repr

structure Resolve : Type where
  nodes : List Node
  deriving DecidableEq, Repr

structure Metadata : Type where
  packages : List Package
  resolve : Option Resolve
  workspace_root : List String
  deriving DecidableEq, Repr

/-- The `HashMap<PackageId, &Package>` both phases build from
`metadata.packages` (package ids are unique in cargo metadata). -/
def packageLookup (m : Metadata) (pid : String) : Option Package :=
  m.packages.find? (fun p => p.id == pid)

/-- `is_workspace_package`: the package manifest path starts with the
workspace root. -/
def is_workspace_package (package : Package) (workspace_root : List String) : Bool :=
  workspace_root.isPrefixOf package.manifest_path

/-- The vendor-directory name `{name}-{version}` used throughout. -/
def vendorKey (package : Package) : String :=
  package.name ++ "-" ++ package.version

/-- The loop body of `find_package_for_dependency`: walk the resolve nodes;
a node id absent from the package map makes the whole lookup return `none`
(the `?` operator inside the loop), otherwise the first node whose package
name equals the looked-up name wins. -/
def fpdLoop (m : Metadata) (actual : String) : List Node → Option (Package × List String)
  | [] => none
  | node :: rest =>
    match packageLookup m node.id with
    | none => none
    | some package =>
      if package.name = actual then some (package, node.features)
      else fpdLoop m actual rest

def find_package_for_dependency (m : Metadata) (dep_name : String)
    (package_name : Option String) : Option (Package × List String) :=
  match m.resolve with
  | none => none
  | some resolve => fpdLoop m (package_name.getD dep_name) resolve.nodes

/-- `get_package_name_from_table`: the `package` rename field of an inline
table, when present and a string. -/
def get_package_name_from_table (fields : Fields) : Option String :=
  match lookupA "package" fields with
  | some (TomlValue.str s) => some s
  | _ => none

/-- `get_package_name_from_table_item`: same extraction for a block table. -/
def get_package_name_from_table_item (fields : Fields) : Option String :=
  match lookupA "package" fields with
  | some (TomlValue.str s) => some s
  | _ => none

/-- The rename argument `update_dependencies` passes to
`find_package_for_dependency` for each entry shape. -/
def entryRename : DepEntry → Option String
  | DepEntry.shorthand _ => none
  | DepEntry.inlineRecord fields => get_package_name_from_table fields
  | DepEntry.blockRecord fields => get_package_name_from_table_item fields
  | DepEntry.other => none

/-! ### Relative paths (`pathdiff::diff_paths`)

Both arguments are absolute component lists in every call the program makes
(the project path is canonicalized and everything else is joined under it),
so the computation is total: strip the common prefix, then one `..` per
remaining base component followed by the remaining target components. -/

def dots (b : List String) : List String := b.map (fun _ => "..")

def diffPaths : List String → List String → List String
  | p, [] => p
  | [], b => dots b
  | x :: p, y :: b => if x = y then diffPaths p b else dots (y :: b) ++ (x :: p)

def renderPath (p : List String) : String := String.intercalate "/" p

/-! ### Registry cache model (`find_crate_source`)

A cache root is a list of directory entries; each subtree carries file and
directory names.  Only `Cargo.toml` contents matter downstream, so each walk
entry pairs the directory path with that directory's own `Cargo.toml` content
(when present), which is what the subsequent recursive copy materialises at
the vendor destination. -/

inductive FTree : Type
  | file (name : String) (content : FileContent)
  | dir (name : String) (children : List FTree)

/-- The `Cargo.toml` immediately inside a directory's child list. -/
def childManifest (children : List FTree) : Option FileContent :=
  children.findSome? (fun c =>
    match c with
    | FTree.file n content => if n = "Cargo.toml" then some content else none
    | FTree.dir _ _ => none)

/-- `WalkDir::new(root).max_depth(d)` restricted to directories
(`filter_entry(is_dir)`), in pre-order, each entry carrying its path and its
own top-level `Cargo.toml` content. -/
def walkDirs : Nat → List String → FTree → List (List String × Option FileContent)
  | _, _, FTree.file _ _ => []
  | 0, pre, FTree.dir n ch => [(pre ++ [n], childManifest ch)]
  | d + 1, pre, FTree.dir n ch =>
    (pre ++ [n], childManifest ch) ::
      ch.flatMap (fun c => walkDirs d (pre ++ [n]) c)

/-- The traversal `find_crate_source` performs: `read_dir` over the root
(skipping non-directories), then a depth-2 `WalkDir` from each registry
directory. -/
def registryWalk (root : List FTree) : List (List String × Option FileContent) :=
  root.flatMap (fun e =>
    match e with
    | FTree.file _ _ => []
    | FTree.dir n ch => walkDirs 2 [] (FTree.dir n ch))

/-- `find_crate_source`: first directory in the traversal whose own name is
exactly `{name}-{version}`; error when none matches. -/
def find_crate_source (root : List FTree) (name version : String) :
    Except String (List String × Option FileContent) :=
  match (registryWalk root).find?
      (fun pt => pt.1.getLast? == some (name ++ "-" ++ version)) with
  | some pt => Except.ok pt
  | none => Except.error ("Crate " ++ name ++ ":" ++ version ++ " not found in Cargo registry")

/-- Whether some entry of a root's traversal is named `{name}-{version}`. -/
def hasMatch (root : List FTree) (name version : String) : Bool :=
  (registryWalk root).any (fun pt => pt.1.getLast? == some (name ++ "-" ++ version))

/-- The candidate cache roots: `some` means the corresponding registry `src`
directory exists, carrying its contents; `none` that the home directory or
`CARGO_HOME` is unset or the path does not exist. -/
structure Env : Type where
  home_registry : Option (List FTree)
  cargo_home_registry : Option (List FTree)

/-- `possible_cargo_homes ... find_map(|p| p.filter(exists))`: the first
candidate root that exists, home location first. -/
def selectRegistry (env : Env) : Option (List FTree) :=
  match env.home_registry with
  | some r => some r
  | none => env.cargo_home_registry

/-- Root selection composed with the per-crate search, exactly as
`copy_dependencies` performs it: one root is selected once and every crate
is searched only inside it. -/
def locateCrate (env : Env) (name version : String) :
    Except String (List String × Option FileContent) :=
  match selectRegistry env with
  | none => Except.error "Failed to find Cargo registry directory"
  | some root => find_crate_source root name version

/-! ### Manifest rewriting (`update_dependencies`) -/

/-- The remote-source field removals, in source order: `version`, `git`,
`branch`, `tag`, `rev`, `registry`. -/
def removeRemote (fields : Fields) : Fields :=
  eraseA "registry" (eraseA "rev" (eraseA "tag" (eraseA "branch"
    (eraseA "git" (eraseA "version" fields)))))

/-- The shared body of the `InlineTable` and `Table` arms (textually
duplicated in the source): remove the remote-source fields, insert `path`,
and insert `features` when the resolved set is non-empty.  The `shorthand`
arm builds the same fields starting from the empty table. -/
def localizeFields (relPathStr : String) (features : List String) (fields : Fields) : Fields :=
  if features.isEmpty then upsert "path" (TomlValue.str relPathStr) (removeRemote fields)
  else
    upsert "features" (TomlValue.strArr features)
      (upsert "path" (TomlValue.str relPathStr) (removeRemote fields))

/-- One iteration of the `update_dependencies` loop, for the entry under key
`dep_name`.  `vendorDirs` is the set of directory names currently present
under the vendor root (`dep_path.exists()`), `vr` the vendor root path and
`manifestDir` the manifest's containing directory. -/
def updateDepEntry (m : Metadata) (vendorDirs : List String) (vr manifestDir : List String)
    (dep_name : String) : DepEntry → DepEntry
  | DepEntry.shorthand v =>
    match find_package_for_dependency m dep_name none with
    | some (package, features) =>
      let crate_dir_name := vendorKey package
      if crate_dir_name ∈ vendorDirs then
        let rel := renderPath (diffPaths (vr ++ [crate_dir_name]) manifestDir)
        DepEntry.inlineRecord (localizeFields rel features [])
      else DepEntry.shorthand v
    | none => DepEntry.shorthand v
  | DepEntry.inlineRecord fields =>
    match find_package_for_dependency m dep_name (get_package_name_from_table fields) with
    | some (package, features) =>
      let crate_dir_name := vendorKey package
      if crate_dir_name ∈ vendorDirs then
        let rel := renderPath (diffPaths (vr ++ [crate_dir_name]) manifestDir)
        DepEntry.inlineRecord (localizeFields rel features fields)
      else DepEntry.inlineRecord fields
    | none => DepEntry.inlineRecord fields
  | DepEntry.blockRecord fields =>
    match find_package_for_dependency m dep_name (get_package_name_from_table_item fields) with
    | some (package, features) =>
      let crate_dir_name := vendorKey package
      if crate_dir_name ∈ vendorDirs then
        let rel := renderPath (diffPaths (vr ++ [crate_dir_name]) manifestDir)
        DepEntry.blockRecord (localizeFields rel features fields)
      else DepEntry.blockRecord fields
    | none => DepEntry.blockRecord fields
  | DepEntry.other => DepEntry.other

/-- `update_dependencies` over one section table. -/
def update_dependencies (m : Metadata) (vendorDirs : List String) (vr manifestDir : List String)
    (deps : List (String × DepEntry)) : List (String × DepEntry) :=
  deps.map (fun kv => (kv.1, updateDepEntry m vendorDirs vr manifestDir kv.1 kv.2))

/-- The three-section visit performed both at the document root and inside
each `[target.*]` block. -/
def updateTables (m : Metadata) (vendorDirs : List String) (vr manifestDir : List String)
    (t : DepTables) : DepTables :=
  { dependencies := update_dependencies m vendorDirs vr manifestDir t.dependencies
    dev_dependencies := update_dependencies m vendorDirs vr manifestDir t.dev_dependencies
    build_dependencies := update_dependencies m vendorDirs vr manifestDir t.build_dependencies }

/-- The document-level rewrite of `update_single_cargo_toml` between parse
and write: all three sections at the root, then inside every target block. -/
def updateDoc (m : Metadata) (vendorDirs : List String) (vr : List String)
    (cargo_toml_path : List String) (doc : ManifestDoc) : ManifestDoc :=
  let manifestDir := cargo_toml_path.dropLast
  { tables := updateTables m vendorDirs vr manifestDir doc.tables
    target := doc.target.map (fun ts => (ts.1, updateTables m vendorDirs vr manifestDir ts.2)) }

/-! ### Filesystem state and the stateful pipeline

The pipeline mutates a real filesystem; a step that fails leaves every earlier
mutation in place, so each stateful operation returns the state reached so far
together with the `Except` outcome. -/

structure FS : Type where
  /-- Names of the subdirectories currently present under the vendor root. -/
  vendorDirs : List String
  /-- Manifest files by full path. -/
  files : List (List String × FileContent)
  /-- `.bak` sidecars, keyed by the manifest path they back up. -/
  baks : List (List String × FileContent)
  /-- Manifest paths whose `.orig` sidecar is present. -/
  origs : List (List String)
  /-- Whether `Cargo.lock` exists at the project root. -/
  lockExists : Bool
  deriving DecidableEq, Repr

def bakExists (p : List String) (st : FS) : Bool :=
  (lookupA p st.baks).isSome

def origExists (p : List String) (st : FS) : Prop :=
  p ∈ st.origs

instance (p : List String) (st : FS) : Decidable (origExists p st) :=
  inferInstanceAs (Decidable (p ∈ st.origs))

/-- The write-back of the rewritten document followed by the `.orig` sidecar
cleanup. -/
def writeBack (m : Metadata) (cargo_toml_path : List String) (vr : List String)
    (st : FS) (doc : ManifestDoc) : FS :=
  let newFiles :=
    upsert cargo_toml_path
      (FileContent.toml (updateDoc m st.vendorDirs vr cargo_toml_path doc)) st.files
  let st2 := { st with files := newFiles }
  if origExists cargo_toml_path st2 then
    { st2 with origs := erasePath cargo_toml_path st2.origs }
  else st2

/-- The read/parse/rewrite/write/cleanup tail of `update_single_cargo_toml`,
run after the backup step. -/
def rewriteManifestFile (m : Metadata) (cargo_toml_path : List String)
    (vr : List String) (st : FS) : FS × Except String Unit :=
  match lookupA cargo_toml_path st.files with
  | none => (st, Except.error "Failed to read Cargo.toml")
  | some (FileContent.raw _) => (st, Except.error "Failed to parse Cargo.toml")
  | some (FileContent.toml doc) => (writeBack m cargo_toml_path vr st doc, Except.ok ())

/-- `update_single_cargo_toml`: one-shot backup when no `.bak` exists yet
(copying the current on-disk content, and failing when the manifest itself is
missing), then read, parse, rewrite all dependency sections, write back, and
drop a stale `.orig` sidecar if present. -/
def update_single_cargo_toml (m : Metadata) (cargo_toml_path : List String)
    (vr : List String) (st : FS) : FS × Except String Unit :=
  if bakExists cargo_toml_path st then rewriteManifestFile m cargo_toml_path vr st
  else
    match lookupA cargo_toml_path st.files with
    | some c =>
      rewriteManifestFile m cargo_toml_path vr
        { st with baks := upsert cargo_toml_path c st.baks }
    | none => (st, Except.error "Failed to backup Cargo.toml to Cargo.toml.bak")

/-- The per-package loop of `update_cargo_toml`: skip workspace members,
rewrite each vendored dependency's own manifest when it exists. -/
def updateVendorManifests (m : Metadata) (vr : List String) :
    List Package → FS → FS × Except String Unit
  | [], st => (st, Except.ok ())
  | package :: rest, st =>
    if is_workspace_package package m.workspace_root then
      updateVendorManifests m vr rest st
    else
      let p := vr ++ [vendorKey package, "Cargo.toml"]
      if (lookupA p st.files).isSome then
        match update_single_cargo_toml m p vr st with
        | (st', Except.ok ()) => updateVendorManifests m vr rest st'
        | (st', Except.error e) => (st', Except.error e)
      else updateVendorManifests m vr rest st

/-- `update_cargo_toml`: the root manifest first, then every vendored
dependency's manifest, all against the same metadata. -/
def update_cargo_toml (m : Metadata) (project vr : List String) (st : FS) :
    FS × Except String Unit :=
  match update_single_cargo_toml m (project ++ ["Cargo.toml"]) vr st with
  | (st', Except.ok ()) => updateVendorManifests m vr m.packages st'
  | (st', Except.error e) => (st', Except.error e)

/-- The body of the `copy_dependencies` loop for one resolve node: look the
node's package up (fatal when missing), skip workspace members, locate the
crate source in the selected registry root, then copy unless the destination
already exists.  The copy materialises the crate's own `Cargo.toml` at
`vr/{name}-{version}/Cargo.toml`. -/
def processNode (root : List FTree) (m : Metadata) (vr : List String) (node : Node)
    (st : FS) : FS × Except String Unit :=
  match packageLookup m node.id with
  | none => (st, Except.error ("Package " ++ node.id ++ " not found in metadata"))
  | some package =>
    if is_workspace_package package m.workspace_root then (st, Except.ok ())
    else
      match find_crate_source root package.name package.version with
      | Except.error e => (st, Except.error e)
      | Except.ok srcEntry =>
        let dest_name := vendorKey package
        if dest_name ∈ st.vendorDirs then (st, Except.ok ())
        else
          let st' := { st with vendorDirs := st.vendorDirs ++ [dest_name] }
          let st'' :=
            match srcEntry.2 with
            | some c => { st' with files := upsert (vr ++ [dest_name, "Cargo.toml"]) c st'.files }
            | none => st'
          (st'', Except.ok ())

def processNodes (root : List FTree) (m : Metadata) (vr : List String) :
    List Node → FS → FS × Except String Unit
  | [], st => (st, Except.ok ())
  | node :: rest, st =>
    match processNode root m vr node st with
    | (st', Except.ok ()) => processNodes root m vr rest st'
    | (st', Except.error e) => (st', Except.error e)

/-- `copy_dependencies`: select the first existing registry root, require
resolve data, then process every node of the resolved graph. -/
def copy_dependencies (env : Env) (m : Metadata) (vr : List String) (st : FS) :
    FS × Except String Unit :=
  match selectRegistry env with
  | none => (st, Except.error "Failed to find Cargo registry directory")
  | some root =>
    match m.resolve with
    | none => (st, Except.error "No resolve data in metadata")
    | some resolve => processNodes root m vr resolve.nodes st

/-- The final step of `main`: remove `Cargo.lock` when it exists. -/
def clearLock (st : FS) : FS :=
  if st.lockExists then { st with lockExists := false } else st

/-- `main` after the external fetch/metadata steps: copy phase, rewrite
phase, then removal of the lock file when present. -/
def runPipeline (env : Env) (m : Metadata) (project : List String)
    (third_party_dir : String) (st : FS) : FS × Except String Unit :=
  let vr := project ++ [third_party_dir]
  match copy_dependencies env m vr st with
  | (st', Except.error e) => (st', Except.error e)
  | (st', Except.ok ()) =>
    match update_cargo_toml m project vr st' with
    | (st'', Except.error e) => (st'', Except.error e)
    | (st'', Except.ok ()) => (clearLock st'', Except.ok ())

/-- A sequence of manifest-rewrite invocations (within one run or across
runs), keeping whatever state each leaves behind, successful or not. -/
def applyUpdates (m : Metadata) (vr : List String) : List (List String) → FS → FS
  | [], st => st
  | p :: ps, st => applyUpdates m vr ps (update_single_cargo_toml m p vr st).1

/-! ### Spec-side definitions (for refinement statements) -/

/-- Modelled from the spec (§4.1): the first ResolvedPackage in the graph's
iteration order whose name matches, paired with that node's feature set. -/
def firstResolvedWithName (m : Metadata) (actual : String) (nodes : List Node) :
    Option (Package × List String) :=
  nodes.findSome? (fun node =>
    (packageLookup m node.id).bind (fun package =>
      if package.name = actual then some (package, node.features) else none))

/-- Well-formedness of an on-disk state: every tracked file lying under the
vendor root lives inside a tracked vendor subdirectory (true of any real
filesystem state, where a file cannot exist without its directory). -/
def vendorConsistent (vr : List String) (st : FS) : Prop :=
  ∀ q c, lookupA q st.files = some c → ∀ d rest, q = vr ++ d :: rest → d ∈ st.vendorDirs

/-- A manifest in its post-rewrite steady state: backed up, no `.orig`
sidecar, and its on-disk document a fixed point of the rewrite. -/
def DoneAt (m : Metadata) (vr p : List String) (st : FS) : Prop :=
  bakExists p st = true ∧ ¬ origExists p st ∧
    ∃ d, lookupA p st.files = some (FileContent.toml d) ∧
      updateDoc m st.vendorDirs vr p d = d

/-! ### Concrete fixtures used by witnesses and counterexamples -/

def emptyDoc : ManifestDoc := ⟨⟨[], [], []⟩, []⟩

/-- A registry root holding the single crate `foo-1.0.0`. -/
def reg0 : List FTree :=
  [FTree.dir "reg" [FTree.dir "foo-1.0.0" [FTree.file "Cargo.toml" (FileContent.toml emptyDoc)]]]

def env0 : Env := ⟨some reg0, none⟩

def pkgRoot : Package := ⟨"idroot", "myproj", "0.1.0", ["proj", "Cargo.toml"]⟩

def pkgFoo : Package := ⟨"idfoo", "foo", "1.0.0", ["home", "reg", "foo-1.0.0", "Cargo.toml"]⟩

/-- A workspace root package plus one registry dependency with one resolved
feature. -/
def m0 : Metadata :=
  ⟨[pkgRoot, pkgFoo], some ⟨[⟨"idroot", []⟩, ⟨"idfoo", ["f1"]⟩]⟩, ["proj"]⟩

def doc0 : ManifestDoc := ⟨⟨[("foo", DepEntry.shorthand "1.0")], [], []⟩, []⟩

/-- Initial on-disk state: just the project manifest and a lock file. -/
def st0 : FS := ⟨[], [(["proj", "Cargo.toml"], FileContent.toml doc0)], [], [], true⟩

/-- The state a first successful run produces from `st0`. -/
def st1 : FS := (runPipeline env0 m0 ["proj"] "3rd-party" st0).1

/-- Candidate roots where the home cache exists but is empty while the
configured override holds the requested crate. -/
def envCx : Env := ⟨some [], some [FTree.dir "reg" [FTree.dir "foo-1.0" []]]⟩

/-- Metadata resolving `foo` with an empty feature set. -/
def mC2 : Metadata := ⟨[pkgFoo], some ⟨[⟨"idfoo", []⟩]⟩, ["proj"]⟩

/-- A table-form entry carrying a stale `features` field. -/
def fieldsC2 : Fields := [("features", TomlValue.strArr ["old"]), ("version", TomlValue.str "1.0")]

/-- Metadata with a second resolved package `bar` absent from the registry. -/
def pkgBar : Package := ⟨"idbar", "bar", "2.0.0", ["home", "reg", "bar-2.0.0", "Cargo.toml"]⟩

def mC5 : Metadata :=
  ⟨[pkgFoo, pkgBar], some ⟨[⟨"idfoo", ["f1"]⟩, ⟨"idbar", []⟩]⟩, ["proj"]⟩

def stEmpty : FS := ⟨[], [], [], [], true⟩

def nodeFoo : Node := ⟨"idfoo", ["f1"]⟩

def nodeBar : Node := ⟨"idbar", []⟩

/-- The state after the copy phase has processed `foo` but not yet `bar`. -/
def stC5 : FS := (processNodes reg0 mC5 (["proj"] ++ ["3rd-party"]) [nodeFoo] stEmpty).1

/-- Metadata whose resolve graph names an identity missing from the package
list. -/
def mC9 : Metadata := ⟨[pkgFoo], some ⟨[⟨"idfoo", ["f1"]⟩, ⟨"idghost", []⟩]⟩, ["proj"]⟩

/-- A project manifest whose content fails to parse as TOML. -/
def stRaw : FS := ⟨[], [(["proj", "Cargo.toml"], FileContent.raw "not toml ][")], [], [], false⟩

/-! ## Association-list lemmas -/

theorem lookupA_upsert_self {κ α : Type} [DecidableEq κ] (k : κ) (v : α) (l : List (κ × α)) :
    lookupA k (upsert k v l) = some v := by
  induction l with
  | nil => simp [upsert, lookupA]
  | cons kv rest ih =>
    obtain ⟨k', v'⟩ := kv
    by_cases h : k' = k
    · simp [upsert, h, lookupA]
    · simp [upsert, h, lookupA, ih]

theorem lookupA_upsert_ne {κ α : Type} [DecidableEq κ] {q k : κ} (h : q ≠ k) (v : α)
    (l : List (κ × α)) : lookupA q (upsert k v l) = lookupA q l := by
  induction l with
  | nil => simp [upsert, lookupA, Ne.symm h]
  | cons kv rest ih =>
    obtain ⟨k', v'⟩ := kv
    by_cases hk : k' = k
    · subst hk
      simp [upsert, lookupA, Ne.symm h]
    · by_cases hq : k' = q
      · subst hq
        simp [upsert, hk, lookupA]
      · simp [upsert, hk, lookupA, hq, ih]

theorem upsert_eq_self {κ α : Type} [DecidableEq κ] {k : κ} {v : α} {l : List (κ × α)}
    (h : lookupA k l = some v) : upsert k v l = l := by
  induction l with
  | nil => simp [lookupA] at h
  | cons kv rest ih =>
    obtain ⟨k', v'⟩ := kv
    by_cases hk : k' = k
    · subst hk
      simp [lookupA] at h
      simp [upsert, h]
    · simp [lookupA, hk] at h
      simp [upsert, hk, ih h]

theorem isSome_lookupA_upsert {κ α : Type} [DecidableEq κ] {k : κ} {c : α} {l : List (κ × α)}
    (h : lookupA k l = some c) (v : α) (q : κ) :
    (lookupA q (upsert k v l)).isSome = (lookupA q l).isSome := by
  by_cases hq : q = k
  · subst hq
    simp [lookupA_upsert_self, h]
  · simp [lookupA_upsert_ne hq]

theorem lookupA_eraseA_self {κ α : Type} [DecidableEq κ] (k : κ) (l : List (κ × α)) :
    lookupA k (eraseA k l) = none := by
  induction l with
  | nil => simp [eraseA, lookupA]
  | cons kv rest ih =>
    obtain ⟨k', v'⟩ := kv
    by_cases hk : k' = k
    · simp [eraseA, hk, ih]
    · simp [eraseA, hk, lookupA, ih]

theorem lookupA_eraseA_ne {κ α : Type} [DecidableEq κ] {q k : κ} (h : q ≠ k)
    (l : List (κ × α)) : lookupA q (eraseA k l) = lookupA q l := by
  induction l with
  | nil => simp [eraseA]
  | cons kv rest ih =>
    obtain ⟨k', v'⟩ := kv
    by_cases hk : k' = k
    · subst hk
      simp [eraseA, lookupA, Ne.symm h, ih]
    · by_cases hq : k' = q
      · subst hq
        simp [eraseA, hk, lookupA]
      · simp [eraseA, hk, lookupA, hq, ih]

theorem eraseA_eq_self {κ α : Type} [DecidableEq κ] {k : κ} {l : List (κ × α)}
    (h : lookupA k l = none) : eraseA k l = l := by
  induction l with
  | nil => simp [eraseA]
  | cons kv rest ih =>
    obtain ⟨k', v'⟩ := kv
    by_cases hk : k' = k
    · subst hk
      simp [lookupA] at h
    · simp [lookupA, hk] at h
      simp [eraseA, hk, ih h]

theorem mem_erasePath {q p : List String} {l : List (List String)} :
    q ∈ erasePath p l ↔ q ∈ l ∧ q ≠ p := by
  induction l with
  | nil => simp [erasePath]
  | cons r rest ih =>
    by_cases hr : r = p
    · subst hr
      simp [erasePath, ih]
      intro h
      exact fun hq => (h hq).elim
    · simp [erasePath, hr, ih]
      constructor
      · rintro (h | ⟨h1, h2⟩)
        · exact ⟨Or.inl h, h ▸ hr⟩
        · exact ⟨Or.inr h1, h2⟩
      · rintro ⟨h1 | h1, h2⟩
        · exact Or.inl h1
        · exact Or.inr ⟨h1, h2⟩

/-! ## Field-rewrite lemmas -/

theorem lookupA_removeRemote_other {q : String} (h1 : q ≠ "version") (h2 : q ≠ "git")
    (h3 : q ≠ "branch") (h4 : q ≠ "tag") (h5 : q ≠ "rev") (h6 : q ≠ "registry")
    (fs : Fields) : lookupA q (removeRemote fs) = lookupA q fs := by
  simp [removeRemote, lookupA_eraseA_ne h1, lookupA_eraseA_ne h2, lookupA_eraseA_ne h3,
    lookupA_eraseA_ne h4, lookupA_eraseA_ne h5, lookupA_eraseA_ne h6]

theorem removeRemote_removed (fs : Fields) :
    lookupA "version" (removeRemote fs) = none ∧ lookupA "git" (removeRemote fs) = none ∧
    lookupA "branch" (removeRemote fs) = none ∧ lookupA "tag" (removeRemote fs) = none ∧
    lookupA "rev" (removeRemote fs) = none ∧ lookupA "registry" (removeRemote fs) = none := by
  refine ⟨?_, ?_, ?_, ?_, ?_, ?_⟩ <;>
    simp [removeRemote, lookupA_eraseA_self, lookupA_eraseA_ne]

theorem removeRemote_eq_self {fs : Fields}
    (hv : lookupA "version" fs = none) (hg : lookupA "git" fs = none)
    (hb : lookupA "branch" fs = none) (ht : lookupA "tag" fs = none)
    (hr : lookupA "rev" fs = none) (hrg : lookupA "registry" fs = none) :
    removeRemote fs = fs := by
  unfold removeRemote
  rw [eraseA_eq_self hv, eraseA_eq_self hg, eraseA_eq_self hb, eraseA_eq_self ht,
    eraseA_eq_self hr, eraseA_eq_self hrg]

theorem lookupA_localize_path (r : String) (f : List String) (fs : Fields) :
    lookupA "path" (localizeFields r f fs) = some (TomlValue.str r) := by
  by_cases hf : f.isEmpty <;>
    simp [localizeFields, hf, lookupA_upsert_self, lookupA_upsert_ne]

theorem lookupA_localize_features_pos {f : List String} (hf : ¬ f.isEmpty)
    (r : String) (fs : Fields) :
    lookupA "features" (localizeFields r f fs) = some (TomlValue.strArr f) := by
  simp [localizeFields, hf, lookupA_upsert_self]

theorem lookupA_localize_features_nil (r : String) (fs : Fields) :
    lookupA "features" (localizeFields r [] fs) = lookupA "features" fs := by
  simp [localizeFields, lookupA_upsert_ne, lookupA_removeRemote_other]

theorem lookupA_localize_package (r : String) (f : List String) (fs : Fields) :
    lookupA "package" (localizeFields r f fs) = lookupA "package" fs := by
  by_cases hf : f.isEmpty <;>
    simp [localizeFields, hf, lookupA_upsert_ne, lookupA_removeRemote_other]

theorem localize_removed (r : String) (f : List String) (fs : Fields) :
    lookupA "version" (localizeFields r f fs) = none ∧
    lookupA "git" (localizeFields r f fs) = none ∧
    lookupA "branch" (localizeFields r f fs) = none ∧
    lookupA "tag" (localizeFields r f fs) = none ∧
    lookupA "rev" (localizeFields r f fs) = none ∧
    lookupA "registry" (localizeFields r f fs) = none := by
  obtain ⟨hv, hg, hb, ht, hr, hrg⟩ := removeRemote_removed fs
  refine ⟨?_, ?_, ?_, ?_, ?_, ?_⟩ <;> by_cases hf : f.isEmpty <;>
    simp [localizeFields, hf, lookupA_upsert_ne, hv, hg, hb, ht, hr, hrg]

theorem localizeFields_def (r : String) (f : List String) (fs : Fields) :
    localizeFields r f fs =
      if f.isEmpty then upsert "path" (TomlValue.str r) (removeRemote fs)
      else upsert "features" (TomlValue.strArr f)
        (upsert "path" (TomlValue.str r) (removeRemote fs)) := rfl

theorem localize_idem (r : String) (f : List String) (fs : Fields) :
    localizeFields r f (localizeFields r f fs) = localizeFields r f fs := by
  obtain ⟨hv, hg, hb, ht, hr, hrg⟩ := localize_removed r f fs
  have hp := lookupA_localize_path r f fs
  have hrr : removeRemote (localizeFields r f fs) = localizeFields r f fs :=
    removeRemote_eq_self hv hg hb ht hr hrg
  by_cases hf : f.isEmpty
  · conv_lhs => rw [localizeFields_def]
    rw [if_pos hf, hrr, upsert_eq_self hp]
  · have hfeat := lookupA_localize_features_pos hf r fs
    conv_lhs => rw [localizeFields_def]
    rw [if_neg hf, hrr, upsert_eq_self hp, upsert_eq_self hfeat]

theorem package_name_localize (r : String) (f : List String) (fs : Fields) :
    get_package_name_from_table (localizeFields r f fs) = get_package_name_from_table fs := by
  unfold get_package_name_from_table
  rw [lookupA_localize_package]

theorem package_name_localize_item (r : String) (f : List String) (fs : Fields) :
    get_package_name_from_table_item (localizeFields r f fs) =
      get_package_name_from_table_item fs := by
  unfold get_package_name_from_table_item
  rw [lookupA_localize_package]

theorem get_package_name_nil : get_package_name_from_table [] = none := rfl

/-! ## Entry-rewrite idempotence -/

theorem updateDepEntry_idem (m : Metadata) (vd : List String) (vr md : List String)
    (dn : String) (e : DepEntry) :
    updateDepEntry m vd vr md dn (updateDepEntry m vd vr md dn e) =
      updateDepEntry m vd vr md dn e := by
  cases e with
  | other => rfl
  | shorthand v =>
    cases hfind : find_package_for_dependency m dn none with
    | none => simp [updateDepEntry, hfind]
    | some pf =>
      obtain ⟨package, features⟩ := pf
      by_cases hmem : vendorKey package ∈ vd
      · simp [updateDepEntry, hfind, hmem, package_name_localize, get_package_name_nil,
          localize_idem]
      · simp [updateDepEntry, hfind, hmem]
  | inlineRecord fields =>
    cases hfind : find_package_for_dependency m dn (get_package_name_from_table fields) with
    | none => simp [updateDepEntry, hfind]
    | some pf =>
      obtain ⟨package, features⟩ := pf
      by_cases hmem : vendorKey package ∈ vd
      · simp [updateDepEntry, hfind, hmem, package_name_localize, localize_idem]
      · simp [updateDepEntry, hfind, hmem]
  | blockRecord fields =>
    cases hfind : find_package_for_dependency m dn (get_package_name_from_table_item fields) with
    | none => simp [updateDepEntry, hfind]
    | some pf =>
      obtain ⟨package, features⟩ := pf
      by_cases hmem : vendorKey package ∈ vd
      · simp [updateDepEntry, hfind, hmem, package_name_localize_item, localize_idem]
      · simp [updateDepEntry, hfind, hmem]

theorem update_dependencies_idem (m : Metadata) (vd : List String) (vr md : List String)
    (deps : List (String × DepEntry)) :
    update_dependencies m vd vr md (update_dependencies m vd vr md deps) =
      update_dependencies m vd vr md deps := by
  unfold update_dependencies
  rw [List.map_map]
  exact List.map_congr_left (fun kv _ => by simp [updateDepEntry_idem])

theorem updateTables_idem (m : Metadata) (vd : List String) (vr md : List String)
    (t : DepTables) :
    updateTables m vd vr md (updateTables m vd vr md t) = updateTables m vd vr md t := by
  simp [updateTables, update_dependencies_idem]

theorem updateDoc_idem (m : Metadata) (vd : List String) (vr p : List String)
    (d : ManifestDoc) :
    updateDoc m vd vr p (updateDoc m vd vr p d) = updateDoc m vd vr p d := by
  unfold updateDoc
  refine congrArg₂ ManifestDoc.mk (updateTables_idem ..) ?_
  rw [List.map_map]
  exact List.map_congr_left (fun ts _ => by simp [updateTables_idem])

/-! ## Characterization of a single-manifest rewrite -/

theorem writeBack_spec (m : Metadata) (p vr : List String) (st : FS) (d : ManifestDoc) :
    (writeBack m p vr st d).vendorDirs = st.vendorDirs ∧
    (writeBack m p vr st d).baks = st.baks ∧
    (writeBack m p vr st d).lockExists = st.lockExists ∧
    (writeBack m p vr st d).files =
      upsert p (FileContent.toml (updateDoc m st.vendorDirs vr p d)) st.files ∧
    ¬ origExists p (writeBack m p vr st d) ∧
    (∀ q, q ≠ p → (origExists q (writeBack m p vr st d) ↔ origExists q st)) := by
  simp only [writeBack]
  by_cases ho : origExists p
      { st with
        files := upsert p (FileContent.toml (updateDoc m st.vendorDirs vr p d)) st.files }
  · rw [if_pos ho]
    refine ⟨rfl, rfl, rfl, rfl, ?_, ?_⟩
    · simp [origExists, mem_erasePath]
    · intro q hq
      simp [origExists, mem_erasePath, hq]
  · rw [if_neg ho]
    exact ⟨rfl, rfl, rfl, rfl, ho, fun q hq => Iff.rfl⟩

theorem rmf_ok_spec (m : Metadata) (p vr : List String) (st st' : FS)
    (h : rewriteManifestFile m p vr st = (st', Except.ok ())) :
    ∃ d, lookupA p st.files = some (FileContent.toml d) ∧ st' = writeBack m p vr st d := by
  unfold rewriteManifestFile at h
  split at h
  · simp at h
  · simp at h
  · next d heq =>
    simp only [Prod.mk.injEq] at h
    exact ⟨d, heq, h.1.symm⟩

theorem rmf_vendorDirs (m : Metadata) (p vr : List String) (st : FS) :
    ((rewriteManifestFile m p vr st).1).vendorDirs = st.vendorDirs := by
  unfold rewriteManifestFile
  split
  · rfl
  · rfl
  · next d heq => exact (writeBack_spec m p vr st d).1

theorem rmf_baks (m : Metadata) (p vr : List String) (st : FS) :
    ((rewriteManifestFile m p vr st).1).baks = st.baks := by
  unfold rewriteManifestFile
  split
  · rfl
  · rfl
  · next d heq => exact (writeBack_spec m p vr st d).2.1

theorem rmf_lock (m : Metadata) (p vr : List String) (st : FS) :
    ((rewriteManifestFile m p vr st).1).lockExists = st.lockExists := by
  unfold rewriteManifestFile
  split
  · rfl
  · rfl
  · next d heq => exact (writeBack_spec m p vr st d).2.2.1

theorem update_single_vendorDirs (m : Metadata) (p vr : List String) (st : FS) :
    ((update_single_cargo_toml m p vr st).1).vendorDirs = st.vendorDirs := by
  unfold update_single_cargo_toml
  split
  · exact rmf_vendorDirs m p vr st
  · split
    · exact rmf_vendorDirs m p vr _
    · rfl

theorem update_single_lock (m : Metadata) (p vr : List String) (st : FS) :
    ((update_single_cargo_toml m p vr st).1).lockExists = st.lockExists := by
  unfold update_single_cargo_toml
  split
  · exact rmf_lock m p vr st
  · split
    · exact rmf_lock m p vr _
    · rfl

theorem update_single_baks_cases (m : Metadata) (q vr : List String) (st : FS) :
    ((update_single_cargo_toml m q vr st).1).baks = st.baks ∨
    (bakExists q st = false ∧ ∃ c, lookupA q st.files = some c ∧
      ((update_single_cargo_toml m q vr st).1).baks = upsert q c st.baks) := by
  unfold update_single_cargo_toml
  split
  · left
    exact rmf_baks m q vr st
  · next hb =>
    split
    · next c hc =>
      right
      exact ⟨by simpa using hb, c, hc, rmf_baks m q vr _⟩
    · left
      rfl

/-- The full characterization of a successful `update_single_cargo_toml`. -/
theorem update_single_ok_spec (m : Metadata) (p vr : List String) (st st' : FS)
    (h : update_single_cargo_toml m p vr st = (st', Except.ok ())) :
    ∃ d, lookupA p st.files = some (FileContent.toml d) ∧
      st'.vendorDirs = st.vendorDirs ∧
      st'.lockExists = st.lockExists ∧
      lookupA p st'.files = some (FileContent.toml (updateDoc m st.vendorDirs vr p d)) ∧
      (∀ q, q ≠ p → lookupA q st'.files = lookupA q st.files) ∧
      (∀ q, (lookupA q st'.files).isSome = (lookupA q st.files).isSome) ∧
      (∀ q, q ≠ p → lookupA q st'.baks = lookupA q st.baks) ∧
      bakExists p st' = true ∧
      ¬ origExists p st' ∧
      (∀ q, q ≠ p → (origExists q st' ↔ origExists q st)) ∧
      (bakExists p st = false → lookupA p st'.baks = lookupA p st.files) ∧
      (bakExists p st = true → lookupA p st'.baks = lookupA p st.baks) := by
  unfold update_single_cargo_toml at h
  split at h
  · next hb =>
    obtain ⟨d, hf, hst⟩ := rmf_ok_spec m p vr st st' h
    subst hst
    obtain ⟨w1, w2, w3, w4, w5, w6⟩ := writeBack_spec m p vr st d
    refine ⟨d, hf, w1, w3, ?_, ?_, ?_, ?_, ?_, w5, w6, ?_, ?_⟩
    · rw [w4]
      exact lookupA_upsert_self ..
    · intro q hq
      rw [w4, lookupA_upsert_ne hq]
    · intro q
      rw [w4, isSome_lookupA_upsert hf]
    · intro q _
      rw [w2]
    · unfold bakExists
      rw [w2]
      simpa using hb
    · intro hfalse
      rw [hb] at hfalse
      cases hfalse
    · intro _
      rw [w2]
  · next hb =>
    split at h
    · next c hc =>
      obtain ⟨d, hf, hst⟩ := rmf_ok_spec m p vr _ st' h
      have hcd : c = FileContent.toml d := by
        have : lookupA p st.files = some (FileContent.toml d) := hf
        rw [hc] at this
        exact (Option.some.injEq ..).mp this
      subst hcd
      subst hst
      obtain ⟨w1, w2, w3, w4, w5, w6⟩ :=
        writeBack_spec m p vr { st with baks := upsert p (FileContent.toml d) st.baks } d
      have hbfalse : bakExists p st = false := by simpa using hb
      refine ⟨d, hf, w1, w3, ?_, ?_, ?_, ?_, ?_, w5, w6, ?_, ?_⟩
      · rw [w4]
        exact lookupA_upsert_self ..
      · intro q hq
        rw [w4, lookupA_upsert_ne hq]
      · intro q
        rw [w4]
        exact isSome_lookupA_upsert hf _ q
      · intro q hq
        rw [w2]
        exact lookupA_upsert_ne hq ..
      · unfold bakExists
        rw [w2]
        simp [lookupA_upsert_self]
      · intro _
        rw [w2, lookupA_upsert_self, hc]
      · intro htrue
        rw [hbfalse] at htrue
        cases htrue
    · simp at h

/-- A `.bak` sidecar that exists survives any later rewrite invocation,
successful or not. -/
theorem bak_stable (m : Metadata) (vr : List String) {p : List String} {st : FS}
    (hp : (lookupA p st.baks).isSome = true) (q : List String) :
    lookupA p ((update_single_cargo_toml m q vr st).1).baks = lookupA p st.baks := by
  rcases update_single_baks_cases m q vr st with h | ⟨hb, c, hc, h⟩
  · rw [h]
  · rw [h]
    by_cases hqp : p = q
    · subst hqp
      unfold bakExists at hb
      rw [hp] at hb
      cases hb
    · exact lookupA_upsert_ne hqp c st.baks

theorem applyUpdates_bak_stable (m : Metadata) (vr p : List String)
    (qs : List (List String)) (st : FS) (hp : (lookupA p st.baks).isSome = true) :
    lookupA p (applyUpdates m vr qs st).baks = lookupA p st.baks := by
  induction qs generalizing st with
  | nil => rfl
  | cons q rest ih =>
    have h1 := bak_stable m vr hp q
    have h2 : (lookupA p ((update_single_cargo_toml m q vr st).1).baks).isSome = true := by
      rw [h1]
      exact hp
    simp only [applyUpdates]
    rw [ih _ h2, h1]

/-! ## Copy-phase lemmas -/

theorem packageLookup_mem {m : Metadata} {pid : String} {package : Package}
    (h : packageLookup m pid = some package) : package ∈ m.packages :=
  List.mem_of_find?_eq_some h

theorem processNode_frame (root : List FTree) (m : Metadata) (vr : List String)
    (node : Node) (st : FS) :
    ((processNode root m vr node st).1).baks = st.baks ∧
    ((processNode root m vr node st).1).origs = st.origs ∧
    ((processNode root m vr node st).1).lockExists = st.lockExists ∧
    (∀ x ∈ st.vendorDirs, x ∈ ((processNode root m vr node st).1).vendorDirs) := by
  simp only [processNode]
  repeat' split
  all_goals refine ⟨rfl, rfl, rfl, fun x hx => ?_⟩
  all_goals first
    | exact hx
    | (simp only [List.mem_append]
       exact Or.inl hx)

theorem processNode_vendorDirs_bound (root : List FTree) (m : Metadata) (vr : List String)
    (node : Node) (st : FS) :
    ∀ x ∈ ((processNode root m vr node st).1).vendorDirs,
      x ∈ st.vendorDirs ∨
        ∃ q, q ∈ m.packages ∧ is_workspace_package q m.workspace_root = false ∧
          x = vendorKey q := by
  simp only [processNode]
  split
  · exact fun x hx => Or.inl hx
  · next package hp =>
    split
    · exact fun x hx => Or.inl hx
    · next hws =>
      split
      · exact fun x hx => Or.inl hx
      · next srcEntry heq =>
        split
        · exact fun x hx => Or.inl hx
        · have hwsf : is_workspace_package package m.workspace_root = false := by
            simpa using hws
          obtain ⟨sp, sc⟩ := srcEntry
          cases sc with
          | none =>
            intro x hx
            simp only [List.mem_append, List.mem_singleton] at hx
            rcases hx with hx | hx
            · exact Or.inl hx
            · exact Or.inr ⟨package, packageLookup_mem hp, hwsf, hx⟩
          | some c =>
            intro x hx
            simp only [List.mem_append, List.mem_singleton] at hx
            rcases hx with hx | hx
            · exact Or.inl hx
            · exact Or.inr ⟨package, packageLookup_mem hp, hwsf, hx⟩

theorem processNodes_frame (root : List FTree) (m : Metadata) (vr : List String)
    (ns : List Node) (st st' : FS) (r : Except String Unit)
    (h : processNodes root m vr ns st = (st', r)) :
    st'.baks = st.baks ∧ st'.origs = st.origs ∧ st'.lockExists = st.lockExists ∧
    (∀ x ∈ st.vendorDirs, x ∈ st'.vendorDirs) := by
  induction ns generalizing st with
  | nil =>
    simp only [processNodes] at h
    injection h with h1 h2
    subst h1
    exact ⟨rfl, rfl, rfl, fun x hx => hx⟩
  | cons node rest ih =>
    simp only [processNodes] at h
    obtain ⟨f1, f2, f3, f4⟩ := processNode_frame root m vr node st
    cases hpn : processNode root m vr node st with
    | mk stn rn =>
      rw [hpn] at h f1 f2 f3 f4
      cases rn with
      | error e =>
        injection h with h1 h2
        subst h1
        exact ⟨f1, f2, f3, f4⟩
      | ok u =>
        cases u
        obtain ⟨g1, g2, g3, g4⟩ := ih stn h
        exact ⟨g1.trans f1, g2.trans f2, g3.trans f3, fun x hx => g4 x (f4 x hx)⟩

theorem processNodes_vendorDirs_bound (root : List FTree) (m : Metadata) (vr : List String)
    (ns : List Node) (st st' : FS) (r : Except String Unit)
    (h : processNodes root m vr ns st = (st', r)) :
    ∀ x ∈ st'.vendorDirs,
      x ∈ st.vendorDirs ∨
        ∃ q, q ∈ m.packages ∧ is_workspace_package q m.workspace_root = false ∧
          x = vendorKey q := by
  induction ns generalizing st with
  | nil =>
    simp only [processNodes] at h
    injection h with h1 h2
    subst h1
    exact fun x hx => Or.inl hx
  | cons node rest ih =>
    simp only [processNodes] at h
    have hb := processNode_vendorDirs_bound root m vr node st
    cases hpn : processNode root m vr node st with
    | mk stn rn =>
      rw [hpn] at h hb
      cases rn with
      | error e =>
        injection h with h1 h2
        subst h1
        exact hb
      | ok u =>
        cases u
        intro x hx
        rcases ih stn h x hx with hx' | hq
        · exact hb x hx'
        · exact Or.inr hq

theorem processNode_files_preserved (root : List FTree) (m : Metadata) (vr : List String)
    (node : Node) (st : FS) (hcons : vendorConsistent vr st) :
    (∀ q c, lookupA q st.files = some c →
      lookupA q ((processNode root m vr node st).1).files = some c) ∧
    vendorConsistent vr ((processNode root m vr node st).1) := by
  simp only [processNode]
  split
  · exact ⟨fun q c h => h, hcons⟩
  · next package hp =>
    split
    · exact ⟨fun q c h => h, hcons⟩
    · split
      · exact ⟨fun q c h => h, hcons⟩
      · next srcEntry heq =>
        split
        · exact ⟨fun q c h => h, hcons⟩
        · next hmem =>
          obtain ⟨sp, sc⟩ := srcEntry
          cases sc with
          | none =>
            refine ⟨fun q c h => h, ?_⟩
            intro q c h d rest hq
            simp only [List.mem_append]
            exact Or.inl (hcons q c h d rest hq)
          | some c0 =>
            have hne : ∀ q c, lookupA q st.files = some c →
                q ≠ vr ++ [vendorKey package, "Cargo.toml"] := by
              intro q c h hq
              exact hmem (hcons q c h (vendorKey package) ["Cargo.toml"] hq)
            refine ⟨?_, ?_⟩
            · intro q c h
              rw [lookupA_upsert_ne (hne q c h)]
              exact h
            · intro q c h d rest hq
              simp only [List.mem_append, List.mem_singleton]
              by_cases hqp : q = vr ++ [vendorKey package, "Cargo.toml"]
              · right
                rw [hqp] at hq
                have h2 := List.append_cancel_left hq
                injection h2 with h3 h4
                exact h3.symm
              · rw [lookupA_upsert_ne hqp] at h
                exact Or.inl (hcons q c h d rest hq)

theorem processNodes_files_preserved (root : List FTree) (m : Metadata) (vr : List String)
    (ns : List Node) (st st' : FS) (r : Except String Unit)
    (h : processNodes root m vr ns st = (st', r)) (hcons : vendorConsistent vr st) :
    (∀ q c, lookupA q st.files = some c → lookupA q st'.files = some c) ∧
    vendorConsistent vr st' := by
  induction ns generalizing st with
  | nil =>
    simp only [processNodes] at h
    injection h with h1 h2
    subst h1
    exact ⟨fun q c hh => hh, hcons⟩
  | cons node rest ih =>
    simp only [processNodes] at h
    obtain ⟨p1, p2⟩ := processNode_files_preserved root m vr node st hcons
    cases hpn : processNode root m vr node st with
    | mk stn rn =>
      rw [hpn] at h p1 p2
      cases rn with
      | error e =>
        injection h with h1 h2
        subst h1
        exact ⟨p1, p2⟩
      | ok u =>
        cases u
        obtain ⟨g1, g2⟩ := ih stn h p2
        exact ⟨fun q c hh => g1 q c (p1 q c hh), g2⟩

theorem processNodes_append (root : List FTree) (m : Metadata) (vr : List String)
    (ns₁ ns₂ : List Node) (st st₁ : FS)
    (h : processNodes root m vr ns₁ st = (st₁, Except.ok ())) :
    processNodes root m vr (ns₁ ++ ns₂) st = processNodes root m vr ns₂ st₁ := by
  induction ns₁ generalizing st with
  | nil =>
    simp only [processNodes] at h
    injection h with h1 h2
    subst h1
    rfl
  | cons node rest ih =>
    simp only [processNodes, List.cons_append]
    simp only [processNodes] at h
    cases hpn : processNode root m vr node st with
    | mk stn rn =>
      rw [hpn] at h
      cases rn with
      | error e =>
        exact absurd (congrArg Prod.snd h) (by simp)
      | ok u =>
        cases u
        exact ih stn h

/-! ## Rewrite-phase frame lemmas and pipeline bounds -/

theorem updateVendorManifests_vendorDirs (m : Metadata) (vr : List String)
    (ps : List Package) (st : FS) :
    ((updateVendorManifests m vr ps st).1).vendorDirs = st.vendorDirs := by
  induction ps generalizing st with
  | nil => rfl
  | cons package rest ih =>
    simp only [updateVendorManifests]
    split
    · exact ih st
    · split
      · cases hu : update_single_cargo_toml m (vr ++ [vendorKey package, "Cargo.toml"]) vr st with
        | mk st1 r =>
          have hv : st1.vendorDirs = st.vendorDirs := by
            have h0 := update_single_vendorDirs m (vr ++ [vendorKey package, "Cargo.toml"]) vr st
            rw [hu] at h0
            exact h0
          cases r with
          | ok u =>
            cases u
            rw [ih st1, hv]
          | error e => exact hv
      · exact ih st

theorem update_cargo_toml_vendorDirs (m : Metadata) (proj vr : List String) (st : FS) :
    ((update_cargo_toml m proj vr st).1).vendorDirs = st.vendorDirs := by
  unfold update_cargo_toml
  cases hu : update_single_cargo_toml m (proj ++ ["Cargo.toml"]) vr st with
  | mk st1 r =>
    have hv : st1.vendorDirs = st.vendorDirs := by
      have h0 := update_single_vendorDirs m (proj ++ ["Cargo.toml"]) vr st
      rw [hu] at h0
      exact h0
    cases r with
    | ok u =>
      cases u
      rw [updateVendorManifests_vendorDirs, hv]
    | error e => exact hv

theorem copy_vendorDirs_bound (env : Env) (m : Metadata) (vr : List String)
    (st st' : FS) (r : Except String Unit)
    (h : copy_dependencies env m vr st = (st', r)) :
    ∀ x ∈ st'.vendorDirs,
      x ∈ st.vendorDirs ∨
        ∃ q, q ∈ m.packages ∧ is_workspace_package q m.workspace_root = false ∧
          x = vendorKey q := by
  unfold copy_dependencies at h
  split at h
  · injection h with h1 h2
    subst h1
    exact fun x hx => Or.inl hx
  · split at h
    · injection h with h1 h2
      subst h1
      exact fun x hx => Or.inl hx
    · exact processNodes_vendorDirs_bound _ m vr _ st st' r h

theorem copy_frame (env : Env) (m : Metadata) (vr : List String) (st st' : FS)
    (r : Except String Unit) (h : copy_dependencies env m vr st = (st', r)) :
    st'.baks = st.baks ∧ st'.origs = st.origs ∧ st'.lockExists = st.lockExists ∧
    (∀ x ∈ st.vendorDirs, x ∈ st'.vendorDirs) := by
  unfold copy_dependencies at h
  split at h
  · injection h with h1 h2
    subst h1
    exact ⟨rfl, rfl, rfl, fun x hx => hx⟩
  · split at h
    · injection h with h1 h2
      subst h1
      exact ⟨rfl, rfl, rfl, fun x hx => hx⟩
    · exact processNodes_frame _ m vr _ st st' r h

theorem runPipeline_vendorDirs_bound (env : Env) (m : Metadata) (proj : List String)
    (tpd : String) (st st' : FS) (r : Except String Unit)
    (h : runPipeline env m proj tpd st = (st', r)) :
    ∀ x ∈ st'.vendorDirs,
      x ∈ st.vendorDirs ∨
        ∃ q, q ∈ m.packages ∧ is_workspace_package q m.workspace_root = false ∧
          x = vendorKey q := by
  simp only [runPipeline] at h
  cases hc : copy_dependencies env m (proj ++ [tpd]) st with
  | mk st1 rc =>
    rw [hc] at h
    have hbound := copy_vendorDirs_bound env m (proj ++ [tpd]) st st1 rc hc
    cases rc with
    | error e =>
      injection h with h1 h2
      subst h1
      exact hbound
    | ok u =>
      cases u
      dsimp only at h
      cases hu : update_cargo_toml m proj (proj ++ [tpd]) st1 with
      | mk st2 ru =>
        rw [hu] at h
        have hv2 : st2.vendorDirs = st1.vendorDirs := by
          have h0 := update_cargo_toml_vendorDirs m proj (proj ++ [tpd]) st1
          rw [hu] at h0
          exact h0
        cases ru with
        | error e =>
          injection h with h1 h2
          subst h1
          intro x hx
          rw [hv2] at hx
          exact hbound x hx
        | ok u2 =>
          cases u2
          injection h with h1 h2
          subst h1
          intro x hx
          have hx1 : x ∈ st2.vendorDirs := by
            unfold clearLock at hx
            by_cases hl : st2.lockExists = true
            · rw [if_pos hl] at hx
              exact hx
            · rw [if_neg hl] at hx
              exact hx
          rw [hv2] at hx1
          exact hbound x hx1

/-! ## Claim C3 -/

theorem updateDepEntry_skip_of_not_vendored (m : Metadata) (vd : List String)
    (vr md : List String) (dn : String) (e : DepEntry) (package : Package)
    (features : List String)
    (hfind : find_package_for_dependency m dn (entryRename e) = some (package, features))
    (hnot : vendorKey package ∉ vd) :
    updateDepEntry m vd vr md dn e = e := by
  cases e with
  | other => rfl
  | shorthand v =>
    have hf : find_package_for_dependency m dn none = some (package, features) := hfind
    simp [updateDepEntry, hf, hnot]
  | inlineRecord fields =>
    have hf : find_package_for_dependency m dn (get_package_name_from_table fields) =
        some (package, features) := hfind
    simp [updateDepEntry, hf, hnot]
  | blockRecord fields =>
    have hf : find_package_for_dependency m dn (get_package_name_from_table_item fields) =
        some (package, features) := hfind
    simp [updateDepEntry, hf, hnot]

/-- C3: a workspace member's vendor directory is never created by the run
(provided the vendor key is not already present and no non-workspace package
shares it), and under the run's final vendor layout every dependency entry
resolving to that member is left unmodified by the rewrite. -/
theorem C3_workspace_member_untouched (env : Env) (m : Metadata) (proj : List String)
    (tpd : String) (st st' : FS) (r : Except String Unit) (p : Package)
    (hws : is_workspace_package p m.workspace_root = true)
    (hinit : vendorKey p ∉ st.vendorDirs)
    (huniq : ∀ q, q ∈ m.packages → vendorKey q = vendorKey p →
      is_workspace_package q m.workspace_root = true)
    (hrun : runPipeline env m proj tpd st = (st', r)) :
    vendorKey p ∉ st'.vendorDirs ∧
    ∀ md dn e features,
      find_package_for_dependency m dn (entryRename e) = some (p, features) →
      updateDepEntry m st'.vendorDirs (proj ++ [tpd]) md dn e = e := by
  have hnot : vendorKey p ∉ st'.vendorDirs := by
    intro hx
    rcases runPipeline_vendorDirs_bound env m proj tpd st st' r hrun _ hx with h | ⟨q, hq, hqws, hqk⟩
    · exact hinit h
    · rw [huniq q hq hqk.symm] at hqws
      cases hqws
  exact ⟨hnot, fun md dn e features hfind =>
    updateDepEntry_skip_of_not_vendored m st'.vendorDirs (proj ++ [tpd]) md dn e p
      features hfind hnot⟩

/-- Witness for C3 at a concrete input. -/
theorem C3_workspace_member_untouched_witness :
    is_workspace_package pkgRoot m0.workspace_root = true ∧
    vendorKey pkgRoot ∉ st0.vendorDirs ∧
    (∀ q, q ∈ m0.packages → vendorKey q = vendorKey pkgRoot →
      is_workspace_package q m0.workspace_root = true) ∧
    (vendorKey pkgRoot ∉ st1.vendorDirs ∧
      ∀ md dn e features,
        find_package_for_dependency m0 dn (entryRename e) = some (pkgRoot, features) →
        updateDepEntry m0 st1.vendorDirs (["proj"] ++ ["3rd-party"]) md dn e = e) :=
  ⟨by decide, by decide, by decide,
    C3_workspace_member_untouched env0 m0 ["proj"] "3rd-party" st0 st1 (Except.ok ())
      pkgRoot (by decide) (by decide) (by decide) rfl⟩

/-! ## Claim C5 -/

/-- C5: when locating a required package fails, the run terminates with that
error, the rewrite phase is never entered (the final state is exactly the
copy phase's partial state, with no backup created), and the vendor copies
completed for earlier-processed packages remain on disk. -/
theorem C5_locate_failure_aborts (env : Env) (m : Metadata) (proj : List String)
    (tpd : String) (st st₁ : FS) (root : List FTree) (r : Resolve)
    (ns₁ ns₂ : List Node) (node : Node) (package : Package) (e : String)
    (hsel : selectRegistry env = some root)
    (hres : m.resolve = some r)
    (hns : r.nodes = ns₁ ++ node :: ns₂)
    (hpre : processNodes root m (proj ++ [tpd]) ns₁ st = (st₁, Except.ok ()))
    (hp : packageLookup m node.id = some package)
    (hws : is_workspace_package package m.workspace_root = false)
    (hloc : find_crate_source root package.name package.version = Except.error e)
    (hcons : vendorConsistent (proj ++ [tpd]) st) :
    runPipeline env m proj tpd st = (st₁, Except.error e) ∧
    (∀ q c, lookupA q st.files = some c → lookupA q st₁.files = some c) ∧
    (∀ x ∈ st.vendorDirs, x ∈ st₁.vendorDirs) ∧
    st₁.baks = st.baks := by
  have hnode : processNode root m (proj ++ [tpd]) node st₁ = (st₁, Except.error e) := by
    simp [processNode, hp, hws, hloc]
  have happ := processNodes_append root m (proj ++ [tpd]) ns₁ (node :: ns₂) st st₁ hpre
  have hcopy : copy_dependencies env m (proj ++ [tpd]) st = (st₁, Except.error e) := by
    simp only [copy_dependencies, hsel, hres, hns, happ, processNodes, hnode]
  obtain ⟨hfiles, -⟩ :=
    processNodes_files_preserved root m (proj ++ [tpd]) ns₁ st st₁ (Except.ok ()) hpre hcons
  obtain ⟨hbaks, -, -, hdirs⟩ :=
    processNodes_frame root m (proj ++ [tpd]) ns₁ st st₁ (Except.ok ()) hpre
  refine ⟨?_, hfiles, hdirs, hbaks⟩
  simp only [runPipeline, hcopy]

/-- Witness for C5 at a concrete input: the second resolved package is
absent from the registry cache. -/
theorem C5_locate_failure_aborts_witness :
    selectRegistry env0 = some reg0 ∧
    mC5.resolve = some ⟨[nodeFoo, nodeBar]⟩ ∧
    (⟨[nodeFoo, nodeBar]⟩ : Resolve).nodes = [nodeFoo] ++ nodeBar :: [] ∧
    processNodes reg0 mC5 (["proj"] ++ ["3rd-party"]) [nodeFoo] stEmpty =
      (stC5, Except.ok ()) ∧
    packageLookup mC5 nodeBar.id = some pkgBar ∧
    is_workspace_package pkgBar mC5.workspace_root = false ∧
    find_crate_source reg0 pkgBar.name pkgBar.version =
      Except.error "Crate bar:2.0.0 not found in Cargo registry" ∧
    (runPipeline env0 mC5 ["proj"] "3rd-party" stEmpty =
        (stC5, Except.error "Crate bar:2.0.0 not found in Cargo registry") ∧
      (∀ q c, lookupA q stEmpty.files = some c → lookupA q stC5.files = some c) ∧
      (∀ x ∈ stEmpty.vendorDirs, x ∈ stC5.vendorDirs) ∧
      stC5.baks = stEmpty.baks) :=
  ⟨rfl, rfl, rfl, rfl, rfl, rfl, rfl,
    C5_locate_failure_aborts env0 mC5 ["proj"] "3rd-party" stEmpty stC5 reg0
      ⟨[nodeFoo, nodeBar]⟩ [nodeFoo] [] nodeBar pkgBar
      "Crate bar:2.0.0 not found in Cargo registry"
      rfl rfl rfl rfl rfl rfl rfl
      (by
        intro q c h d rest hq
        simp [stEmpty, lookupA] at h)⟩

/-! ## Claim C9 -/

theorem processNodes_error_of_missing (root : List FTree) (m : Metadata) (vr : List String)
    (ns : List Node) (st : FS)
    (hbad : ∃ node ∈ ns, packageLookup m node.id = none) :
    ∃ st₁ e, processNodes root m vr ns st = (st₁, Except.error e) := by
  induction ns generalizing st with
  | nil =>
    obtain ⟨n, hn, -⟩ := hbad
    simp at hn
  | cons node rest ih =>
    obtain ⟨n, hn, hmiss⟩ := hbad
    simp only [processNodes]
    cases hpn : processNode root m vr node st with
    | mk stn rn =>
      cases rn with
      | error e => exact ⟨stn, e, rfl⟩
      | ok u =>
        cases u
        rcases List.mem_cons.mp hn with rfl | hnrest
        · exfalso
          unfold processNode at hpn
          rw [hmiss] at hpn
          exact absurd (congrArg Prod.snd hpn) (by simp)
        · obtain ⟨st₂, e, hrec⟩ := ih stn ⟨n, hnrest, hmiss⟩
          exact ⟨st₂, e, hrec⟩

/-- C9: a resolve-graph node whose identity is missing from the package list
makes the copy phase fail, so the run aborts with an error and the manifest
rewrite phase never runs (no backup is ever created). -/
theorem C9_missing_identity_aborts (env : Env) (m : Metadata) (proj : List String)
    (tpd : String) (st : FS) (r : Resolve)
    (hres : m.resolve = some r)
    (hbad : ∃ node ∈ r.nodes, packageLookup m node.id = none) :
    ∃ st₁ e, copy_dependencies env m (proj ++ [tpd]) st = (st₁, Except.error e) ∧
      runPipeline env m proj tpd st = (st₁, Except.error e) ∧
      st₁.baks = st.baks := by
  cases hsel : selectRegistry env with
  | none =>
    have hcopy : copy_dependencies env m (proj ++ [tpd]) st =
        (st, Except.error "Failed to find Cargo registry directory") := by
      simp only [copy_dependencies, hsel]
    refine ⟨st, _, hcopy, ?_, rfl⟩
    simp only [runPipeline, hcopy]
  | some root =>
    obtain ⟨st₁, e, hpn⟩ := processNodes_error_of_missing root m (proj ++ [tpd]) r.nodes st hbad
    have hcopy : copy_dependencies env m (proj ++ [tpd]) st = (st₁, Except.error e) := by
      simp only [copy_dependencies, hsel, hres]
      exact hpn
    obtain ⟨hbaks, -, -, -⟩ :=
      processNodes_frame root m (proj ++ [tpd]) r.nodes st st₁ (Except.error e) hpn
    refine ⟨st₁, e, hcopy, ?_, hbaks⟩
    simp only [runPipeline, hcopy]

/-- Witness for C9 at a concrete input: the second resolve node names an
identity with no entry in the package list. -/
theorem C9_missing_identity_aborts_witness :
    mC9.resolve = some ⟨[nodeFoo, ⟨"idghost", []⟩]⟩ ∧
    (∃ node ∈ [nodeFoo, (⟨"idghost", []⟩ : Node)], packageLookup mC9 node.id = none) ∧
    ∃ st₁ e, copy_dependencies env0 mC9 (["proj"] ++ ["3rd-party"]) stEmpty =
        (st₁, Except.error e) ∧
      runPipeline env0 mC9 ["proj"] "3rd-party" stEmpty = (st₁, Except.error e) ∧
      st₁.baks = stEmpty.baks :=
  ⟨rfl, ⟨⟨"idghost", []⟩, by decide, rfl⟩,
    C9_missing_identity_aborts env0 mC9 ["proj"] "3rd-party" stEmpty
      ⟨[nodeFoo, ⟨"idghost", []⟩]⟩ rfl ⟨⟨"idghost", []⟩, by decide, rfl⟩⟩

/-! ## Steady-state lemmas for idempotence -/

theorem clearLock_fields (st : FS) :
    (clearLock st).vendorDirs = st.vendorDirs ∧ (clearLock st).files = st.files ∧
    (clearLock st).baks = st.baks ∧ (clearLock st).origs = st.origs ∧
    (clearLock st).lockExists = false := by
  unfold clearLock
  by_cases hl : st.lockExists = true
  · rw [if_pos hl]
    exact ⟨rfl, rfl, rfl, rfl, rfl⟩
  · rw [if_neg hl]
    exact ⟨rfl, rfl, rfl, rfl, by simpa using hl⟩

theorem doneAt_clearLock (m : Metadata) (vr p : List String) (st : FS) :
    DoneAt m vr p (clearLock st) ↔ DoneAt m vr p st := by
  unfold clearLock
  by_cases hl : st.lockExists = true
  · rw [if_pos hl]
    exact Iff.rfl
  · rw [if_neg hl]

theorem clearLock_of_not_lock {st : FS} (h : st.lockExists = false) : clearLock st = st := by
  unfold clearLock
  simp [h]

theorem update_single_establishes_done (m : Metadata) (p vr : List String) (st st' : FS)
    (h : update_single_cargo_toml m p vr st = (st', Except.ok ())) :
    DoneAt m vr p st' := by
  obtain ⟨d, hf, hvd, hlk, hfile', hfne, hkeys, hbne, hbak', horig', horigne, hc1, hc2⟩ :=
    update_single_ok_spec m p vr st st' h
  refine ⟨hbak', horig', updateDoc m st.vendorDirs vr p d, hfile', ?_⟩
  rw [hvd]
  exact updateDoc_idem m st.vendorDirs vr p d

theorem update_single_preserves_done (m : Metadata) (q vr : List String) (st st' : FS)
    (h : update_single_cargo_toml m q vr st = (st', Except.ok ())) (p : List String)
    (hd : DoneAt m vr p st) : DoneAt m vr p st' := by
  by_cases hpq : p = q
  · subst hpq
    exact update_single_establishes_done m p vr st st' h
  · obtain ⟨d0, hf, hvd, hlk, hfile', hfne, hkeys, hbne, hbak', horig', horigne, hc1, hc2⟩ :=
      update_single_ok_spec m q vr st st' h
    obtain ⟨hb, ho, d, hfl, hdoc⟩ := hd
    refine ⟨?_, ?_, d, ?_, ?_⟩
    · unfold bakExists at hb ⊢
      rw [hbne p hpq]
      exact hb
    · intro hcon
      exact ho ((horigne p hpq).mp hcon)
    · rw [hfne p hpq]
      exact hfl
    · rw [hvd]
      exact hdoc

theorem update_single_files_keys (m : Metadata) (p vr : List String) (st st' : FS)
    (h : update_single_cargo_toml m p vr st = (st', Except.ok ())) (q : List String) :
    (lookupA q st'.files).isSome = (lookupA q st.files).isSome := by
  obtain ⟨d, hf, hvd, hlk, hfile', hfne, hkeys, hbne, hbak', horig', horigne, hc1, hc2⟩ :=
    update_single_ok_spec m p vr st st' h
  exact hkeys q

theorem writeBack_id (m : Metadata) (p vr : List String) (st : FS) (d : ManifestDoc)
    (hdoc : updateDoc m st.vendorDirs vr p d = d)
    (hfile : lookupA p st.files = some (FileContent.toml d))
    (horig : ¬ origExists p st) : writeBack m p vr st d = st := by
  have hup : upsert p (FileContent.toml d) st.files = st.files := upsert_eq_self hfile
  simp only [writeBack, hdoc, hup]
  have hEta : { st with files := st.files } = st := rfl
  rw [hEta, if_neg horig]

/-- A manifest already in its steady state is rewritten to itself. -/
theorem update_single_done_identity (m : Metadata) (p vr : List String) (st : FS)
    (hd : DoneAt m vr p st) : update_single_cargo_toml m p vr st = (st, Except.ok ()) := by
  obtain ⟨hbak, horig, d, hfile, hdoc⟩ := hd
  unfold update_single_cargo_toml
  rw [if_pos hbak]
  simp only [rewriteManifestFile, hfile]
  rw [writeBack_id m p vr st d hdoc hfile horig]

theorem updateVendorManifests_ok_spec (m : Metadata) (vr : List String) (ps : List Package)
    (st st' : FS) (h : updateVendorManifests m vr ps st = (st', Except.ok ())) :
    (∀ p, DoneAt m vr p st → DoneAt m vr p st') ∧
    (∀ q, (lookupA q st'.files).isSome = (lookupA q st.files).isSome) ∧
    (∀ package ∈ ps, is_workspace_package package m.workspace_root = false →
      (lookupA (vr ++ [vendorKey package, "Cargo.toml"]) st.files).isSome = true →
      DoneAt m vr (vr ++ [vendorKey package, "Cargo.toml"]) st') := by
  induction ps generalizing st with
  | nil =>
    simp only [updateVendorManifests] at h
    injection h with h1 h2
    subst h1
    exact ⟨fun p hp => hp, fun q => rfl, fun package hq => by simp at hq⟩
  | cons package rest ih =>
    simp only [updateVendorManifests] at h
    split at h
    · next hwst =>
      obtain ⟨P1, P2, P3⟩ := ih st h
      refine ⟨P1, P2, ?_⟩
      intro q hq hwf hsome
      rcases List.mem_cons.mp hq with rfl | hqrest
      · rw [hwst] at hwf
        cases hwf
      · exact P3 q hqrest hwf hsome
    · next hwst =>
      split at h
      · next hex =>
        cases hu : update_single_cargo_toml m (vr ++ [vendorKey package, "Cargo.toml"]) vr st with
        | mk st1 r =>
          rw [hu] at h
          cases r with
          | error e => exact absurd (congrArg Prod.snd h) (by simp)
          | ok u =>
            cases u
            obtain ⟨P1, P2, P3⟩ := ih st1 h
            have hdone1 := update_single_establishes_done m _ vr st st1 hu
            have hpres := update_single_preserves_done m _ vr st st1 hu
            have hkeys := update_single_files_keys m _ vr st st1 hu
            refine ⟨fun p hp => P1 p (hpres p hp), fun q => (P2 q).trans (hkeys q), ?_⟩
            intro q hq hwf hsome
            rcases List.mem_cons.mp hq with rfl | hqrest
            · exact P1 _ hdone1
            · exact P3 q hqrest hwf ((hkeys _).trans hsome)
      · next hex =>
        obtain ⟨P1, P2, P3⟩ := ih st h
        refine ⟨P1, P2, ?_⟩
        intro q hq hwf hsome
        rcases List.mem_cons.mp hq with rfl | hqrest
        · exact absurd hsome (by simpa using hex)
        · exact P3 q hqrest hwf hsome

theorem updateVendorManifests_skip (m : Metadata) (vr : List String) (ps : List Package)
    (st : FS)
    (hall : ∀ package ∈ ps, is_workspace_package package m.workspace_root = false →
      (lookupA (vr ++ [vendorKey package, "Cargo.toml"]) st.files).isSome = true →
      DoneAt m vr (vr ++ [vendorKey package, "Cargo.toml"]) st) :
    updateVendorManifests m vr ps st = (st, Except.ok ()) := by
  induction ps generalizing st with
  | nil => rfl
  | cons package rest ih =>
    simp only [updateVendorManifests]
    split
    · exact ih st (fun q hq => hall q (List.mem_cons_of_mem _ hq))
    · next hwst =>
      split
      · next hex =>
        have hd := hall package (List.mem_cons_self ..) (by simpa using hwst) hex
        rw [update_single_done_identity m _ vr st hd]
        exact ih st (fun q hq => hall q (List.mem_cons_of_mem _ hq))
      · exact ih st (fun q hq => hall q (List.mem_cons_of_mem _ hq))

theorem update_cargo_toml_ok_spec (m : Metadata) (proj vr : List String) (st st' : FS)
    (h : update_cargo_toml m proj vr st = (st', Except.ok ())) :
    DoneAt m vr (proj ++ ["Cargo.toml"]) st' ∧
    (∀ p, DoneAt m vr p st → DoneAt m vr p st') ∧
    (∀ q, (lookupA q st'.files).isSome = (lookupA q st.files).isSome) ∧
    (∀ package ∈ m.packages, is_workspace_package package m.workspace_root = false →
      (lookupA (vr ++ [vendorKey package, "Cargo.toml"]) st.files).isSome = true →
      DoneAt m vr (vr ++ [vendorKey package, "Cargo.toml"]) st') := by
  unfold update_cargo_toml at h
  cases hu : update_single_cargo_toml m (proj ++ ["Cargo.toml"]) vr st with
  | mk st1 r =>
    rw [hu] at h
    cases r with
    | error e => exact absurd (congrArg Prod.snd h) (by simp)
    | ok u =>
      cases u
      obtain ⟨P1, P2, P3⟩ := updateVendorManifests_ok_spec m vr m.packages st1 st' h
      have hdone1 := update_single_establishes_done m _ vr st st1 hu
      have hpres := update_single_preserves_done m _ vr st st1 hu
      have hkeys := update_single_files_keys m _ vr st st1 hu
      exact ⟨P1 _ hdone1, fun p hp => P1 p (hpres p hp), fun q => (P2 q).trans (hkeys q),
        fun package hq hwf hsome => P3 package hq hwf ((hkeys _).trans hsome)⟩

theorem update_cargo_toml_skip (m : Metadata) (proj vr : List String) (st : FS)
    (hroot : DoneAt m vr (proj ++ ["Cargo.toml"]) st)
    (hall : ∀ package ∈ m.packages, is_workspace_package package m.workspace_root = false →
      (lookupA (vr ++ [vendorKey package, "Cargo.toml"]) st.files).isSome = true →
      DoneAt m vr (vr ++ [vendorKey package, "Cargo.toml"]) st) :
    update_cargo_toml m proj vr st = (st, Except.ok ()) := by
  unfold update_cargo_toml
  rw [update_single_done_identity m _ vr st hroot]
  exact updateVendorManifests_skip m vr m.packages st hall

theorem processNode_ok_spec (root : List FTree) (m : Metadata) (vr : List String)
    (node : Node) (st stn : FS)
    (h : processNode root m vr node st = (stn, Except.ok ())) :
    ∃ package, packageLookup m node.id = some package ∧
      (is_workspace_package package m.workspace_root = false →
        (∃ pt, find_crate_source root package.name package.version = Except.ok pt) ∧
        vendorKey package ∈ stn.vendorDirs) := by
  simp only [processNode] at h
  split at h
  · exact absurd (congrArg Prod.snd h) (by simp)
  · next package hp =>
    split at h
    · next hws =>
      injection h with h1 h2
      subst h1
      exact ⟨package, hp, fun hwf => by rw [hws] at hwf; cases hwf⟩
    · next hws =>
      split at h
      · exact absurd (congrArg Prod.snd h) (by simp)
      · next srcEntry heq =>
        split at h
        · next hmem =>
          injection h with h1 h2
          subst h1
          exact ⟨package, hp, fun _ => ⟨⟨srcEntry, heq⟩, hmem⟩⟩
        · next hmem =>
          obtain ⟨sp, sc⟩ := srcEntry
          cases sc with
          | none =>
            injection h with h1 h2
            subst h1
            exact ⟨package, hp, fun _ => ⟨⟨(sp, none), heq⟩, by simp⟩⟩
          | some c =>
            injection h with h1 h2
            subst h1
            exact ⟨package, hp, fun _ => ⟨⟨(sp, some c), heq⟩, by simp⟩⟩

theorem processNodes_ok_nodes (root : List FTree) (m : Metadata) (vr : List String)
    (ns : List Node) (st st' : FS)
    (h : processNodes root m vr ns st = (st', Except.ok ())) :
    ∀ node ∈ ns, ∃ package, packageLookup m node.id = some package ∧
      (is_workspace_package package m.workspace_root = false →
        (∃ pt, find_crate_source root package.name package.version = Except.ok pt) ∧
        vendorKey package ∈ st'.vendorDirs) := by
  induction ns generalizing st with
  | nil =>
    intro node hn
    simp at hn
  | cons node rest ih =>
    intro n hn
    simp only [processNodes] at h
    cases hpn : processNode root m vr node st with
    | mk stn rn =>
      rw [hpn] at h
      cases rn with
      | error e => exact absurd (congrArg Prod.snd h) (by simp)
      | ok u =>
        cases u
        rcases List.mem_cons.mp hn with rfl | hrest
        · obtain ⟨package, hp, hful⟩ := processNode_ok_spec root m vr n st stn hpn
          obtain ⟨-, -, -, hmono⟩ := processNodes_frame root m vr rest stn st' (Except.ok ()) h
          exact ⟨package, hp, fun hwf => ⟨(hful hwf).1, hmono _ (hful hwf).2⟩⟩
        · exact ih stn h n hrest

theorem processNodes_skip (root : List FTree) (m : Metadata) (vr : List String)
    (ns : List Node) (st : FS)
    (hall : ∀ node ∈ ns, ∃ package, packageLookup m node.id = some package ∧
      (is_workspace_package package m.workspace_root = false →
        (∃ pt, find_crate_source root package.name package.version = Except.ok pt) ∧
        vendorKey package ∈ st.vendorDirs)) :
    processNodes root m vr ns st = (st, Except.ok ()) := by
  induction ns generalizing st with
  | nil => rfl
  | cons node rest ih =>
    obtain ⟨package, hp, hrest⟩ := hall node (List.mem_cons_self ..)
    simp only [processNodes]
    have hpn : processNode root m vr node st = (st, Except.ok ()) := by
      by_cases hw : is_workspace_package package m.workspace_root = true
      · simp [processNode, hp, hw]
      · obtain ⟨⟨pt, hloc⟩, hmem⟩ := hrest (by simpa using hw)
        simp [processNode, hp, hw, hloc, hmem]
    rw [hpn]
    exact ih st (fun n hn => hall n (List.mem_cons_of_mem _ hn))

theorem copy_ok_spec (env : Env) (m : Metadata) (vr : List String) (st st₁ : FS)
    (h : copy_dependencies env m vr st = (st₁, Except.ok ())) :
    ∃ root r, selectRegistry env = some root ∧ m.resolve = some r ∧
      processNodes root m vr r.nodes st = (st₁, Except.ok ()) := by
  unfold copy_dependencies at h
  split at h
  · exact absurd (congrArg Prod.snd h) (by simp)
  · next root hsel =>
    split at h
    · exact absurd (congrArg Prod.snd h) (by simp)
    · next r hres => exact ⟨root, r, hsel, hres, h⟩

/-! ## Claim C6 -/

/-- C6: a second run on the state produced by a successful first run changes
nothing — every copy skips, every backup skips, and every manifest rewrite
reproduces the file's current content. -/
theorem C6_second_run_identity (env : Env) (m : Metadata) (proj : List String)
    (tpd : String) (st st₁ : FS)
    (h : runPipeline env m proj tpd st = (st₁, Except.ok ())) :
    runPipeline env m proj tpd st₁ = (st₁, Except.ok ()) := by
  simp only [runPipeline] at h
  cases hc : copy_dependencies env m (proj ++ [tpd]) st with
  | mk stc rc =>
    rw [hc] at h
    cases rc with
    | error e => exact absurd (congrArg Prod.snd h) (by simp)
    | ok u =>
      cases u
      dsimp only at h
      cases hu : update_cargo_toml m proj (proj ++ [tpd]) stc with
      | mk stu ru =>
        rw [hu] at h
        cases ru with
        | error e => exact absurd (congrArg Prod.snd h) (by simp)
        | ok u2 =>
          cases u2
          injection h with h1 h2
          subst h1
          obtain ⟨root, r, hsel, hres, hpn⟩ := copy_ok_spec env m (proj ++ [tpd]) st stc hc
          obtain ⟨U1, U2, U3, U4⟩ := update_cargo_toml_ok_spec m proj (proj ++ [tpd]) stc stu hu
          have hvstu : stu.vendorDirs = stc.vendorDirs := by
            have h0 := update_cargo_toml_vendorDirs m proj (proj ++ [tpd]) stc
            rw [hu] at h0
            exact h0
          obtain ⟨cl1, cl2, cl3, cl4, cl5⟩ := clearLock_fields stu
          have hdirs : (clearLock stu).vendorDirs = stc.vendorDirs := cl1.trans hvstu
          have hnodes := processNodes_ok_nodes root m (proj ++ [tpd]) r.nodes st stc hpn
          have hcopy2 : copy_dependencies env m (proj ++ [tpd]) (clearLock stu) =
              (clearLock stu, Except.ok ()) := by
            have hskip := processNodes_skip root m (proj ++ [tpd]) r.nodes (clearLock stu)
              (fun node hn => by
                obtain ⟨package, hp, hful⟩ := hnodes node hn
                exact ⟨package, hp, fun hwf =>
                  ⟨(hful hwf).1, by rw [hdirs]; exact (hful hwf).2⟩⟩)
            simp only [copy_dependencies, hsel, hres]
            exact hskip
          have hrootdone : DoneAt m (proj ++ [tpd]) (proj ++ ["Cargo.toml"]) (clearLock stu) :=
            (doneAt_clearLock m (proj ++ [tpd]) (proj ++ ["Cargo.toml"]) stu).mpr U1
          have hallpkg : ∀ package ∈ m.packages,
              is_workspace_package package m.workspace_root = false →
              (lookupA ((proj ++ [tpd]) ++ [vendorKey package, "Cargo.toml"])
                (clearLock stu).files).isSome = true →
              DoneAt m (proj ++ [tpd])
                ((proj ++ [tpd]) ++ [vendorKey package, "Cargo.toml"]) (clearLock stu) := by
            intro package hq hwf hsome
            rw [cl2, U3] at hsome
            exact (doneAt_clearLock ..).mpr (U4 package hq hwf hsome)
          have hupdate2 : update_cargo_toml m proj (proj ++ [tpd]) (clearLock stu) =
              (clearLock stu, Except.ok ()) :=
            update_cargo_toml_skip m proj (proj ++ [tpd]) (clearLock stu) hrootdone hallpkg
          simp only [runPipeline, hcopy2, hupdate2]
          rw [clearLock_of_not_lock cl5]

/-- Witness for C6 at a concrete input: a full successful run from `st0`. -/
theorem C6_second_run_identity_witness :
    runPipeline env0 m0 ["proj"] "3rd-party" st0 = (st1, Except.ok ()) ∧
    runPipeline env0 m0 ["proj"] "3rd-party" st1 = (st1, Except.ok ()) :=
  ⟨rfl, C6_second_run_identity env0 m0 ["proj"] "3rd-party" st0 st1 rfl⟩

/-! ## Claim C1 -/

/-- C1: a Shorthand entry whose target package is found in the graph and
whose vendor directory exists is replaced by an inline record whose `path`
equals the relative path from the manifest's directory to the vendor
directory, carrying `features` equal to the resolved set exactly when that
set is non-empty. -/
theorem C1_shorthand_rewrite (m : Metadata) (vd vr md : List String) (dn v : String)
    (package : Package) (features : List String)
    (h1 : find_package_for_dependency m dn none = some (package, features))
    (h2 : vendorKey package ∈ vd) :
    ∃ fields,
      updateDepEntry m vd vr md dn (DepEntry.shorthand v) = DepEntry.inlineRecord fields ∧
      lookupA "path" fields =
        some (TomlValue.str (renderPath (diffPaths (vr ++ [vendorKey package]) md))) ∧
      (features ≠ [] → lookupA "features" fields = some (TomlValue.strArr features)) ∧
      (features = [] → lookupA "features" fields = none) := by
  refine ⟨localizeFields (renderPath (diffPaths (vr ++ [vendorKey package]) md)) features [],
    ?_, lookupA_localize_path .., ?_, ?_⟩
  · simp [updateDepEntry, h1, h2]
  · intro hf
    exact lookupA_localize_features_pos (by simpa using hf) ..
  · rintro rfl
    rw [lookupA_localize_features_nil]
    rfl

/-- Witness for C1 at a concrete input. -/
theorem C1_shorthand_rewrite_witness :
    find_package_for_dependency m0 "foo" none = some (pkgFoo, ["f1"]) ∧
    vendorKey pkgFoo ∈ ["foo-1.0.0"] ∧
    ∃ fields,
      updateDepEntry m0 ["foo-1.0.0"] ["proj", "3rd-party"] ["proj"] "foo"
          (DepEntry.shorthand "1.0") = DepEntry.inlineRecord fields ∧
      lookupA "path" fields =
        some (TomlValue.str (renderPath
          (diffPaths (["proj", "3rd-party"] ++ [vendorKey pkgFoo]) ["proj"]))) ∧
      (["f1"] ≠ ([] : List String) →
        lookupA "features" fields = some (TomlValue.strArr ["f1"])) ∧
      (["f1"] = ([] : List String) → lookupA "features" fields = none) :=
  ⟨rfl, by decide,
    C1_shorthand_rewrite m0 ["foo-1.0.0"] ["proj", "3rd-party"] ["proj"] "foo" "1.0"
      pkgFoo ["f1"] rfl (by decide)⟩

/-! ## Claim C2 -/

/-- C2 counterexample: the resolved feature set is empty, yet after the
rewrite the entry still has a `features` field (the stale one), refuting
"has a features field exactly when the resolved set is non-empty". -/
theorem C2_counterexample :
    find_package_for_dependency mC2 "foo" (get_package_name_from_table fieldsC2) =
      some (pkgFoo, []) ∧
    vendorKey pkgFoo ∈ ["foo-1.0.0"] ∧
    updateDepEntry mC2 ["foo-1.0.0"] ["proj", "3rd-party"] ["proj"] "foo"
        (DepEntry.inlineRecord fieldsC2) =
      DepEntry.inlineRecord
        [("features", TomlValue.strArr ["old"]), ("path", TomlValue.str "3rd-party/foo-1.0.0")] ∧
    lookupA "features"
        [("features", TomlValue.strArr ["old"]), ("path", TomlValue.str "3rd-party/foo-1.0.0")] =
      some (TomlValue.strArr ["old"]) :=
  ⟨rfl, by decide, by decide, rfl⟩

/-- C2 (amended): for table-form entries the remote-source fields are
removed, `path` is set, and `features` is overwritten with the resolved set
when that set is non-empty; when it is empty, a pre-existing `features`
field is left unchanged rather than removed. -/
theorem C2_table_rewrite (m : Metadata) (vd vr md : List String) (dn : String)
    (fields : Fields) (package : Package) (features : List String)
    (h1 : find_package_for_dependency m dn (get_package_name_from_table fields) =
      some (package, features))
    (h2 : vendorKey package ∈ vd) :
    ∃ L,
      updateDepEntry m vd vr md dn (DepEntry.inlineRecord fields) = DepEntry.inlineRecord L ∧
      updateDepEntry m vd vr md dn (DepEntry.blockRecord fields) = DepEntry.blockRecord L ∧
      lookupA "version" L = none ∧ lookupA "git" L = none ∧ lookupA "branch" L = none ∧
      lookupA "tag" L = none ∧ lookupA "rev" L = none ∧ lookupA "registry" L = none ∧
      lookupA "path" L =
        some (TomlValue.str (renderPath (diffPaths (vr ++ [vendorKey package]) md))) ∧
      (features ≠ [] → lookupA "features" L = some (TomlValue.strArr features)) ∧
      (features = [] → lookupA "features" L = lookupA "features" fields) := by
  have h1b : find_package_for_dependency m dn (get_package_name_from_table_item fields) =
      some (package, features) := h1
  obtain ⟨hv, hg, hb, ht, hr, hrg⟩ := localize_removed
    (renderPath (diffPaths (vr ++ [vendorKey package]) md)) features fields
  refine ⟨localizeFields (renderPath (diffPaths (vr ++ [vendorKey package]) md)) features fields,
    ?_, ?_, hv, hg, hb, ht, hr, hrg, lookupA_localize_path .., ?_, ?_⟩
  · simp [updateDepEntry, h1, h2]
  · simp [updateDepEntry, h1b, h2]
  · intro hf
    exact lookupA_localize_features_pos (by simpa using hf) ..
  · rintro rfl
    exact lookupA_localize_features_nil ..

/-- Witness for the amended C2 at a concrete input. -/
theorem C2_table_rewrite_witness :
    find_package_for_dependency m0 "foo"
        (get_package_name_from_table [("version", TomlValue.str "1.0")]) =
      some (pkgFoo, ["f1"]) ∧
    vendorKey pkgFoo ∈ ["foo-1.0.0"] ∧
    ∃ L,
      updateDepEntry m0 ["foo-1.0.0"] ["proj", "3rd-party"] ["proj"] "foo"
          (DepEntry.inlineRecord [("version", TomlValue.str "1.0")]) =
        DepEntry.inlineRecord L ∧
      updateDepEntry m0 ["foo-1.0.0"] ["proj", "3rd-party"] ["proj"] "foo"
          (DepEntry.blockRecord [("version", TomlValue.str "1.0")]) =
        DepEntry.blockRecord L ∧
      lookupA "version" L = none ∧ lookupA "git" L = none ∧ lookupA "branch" L = none ∧
      lookupA "tag" L = none ∧ lookupA "rev" L = none ∧ lookupA "registry" L = none ∧
      lookupA "path" L =
        some (TomlValue.str (renderPath
          (diffPaths (["proj", "3rd-party"] ++ [vendorKey pkgFoo]) ["proj"]))) ∧
      (["f1"] ≠ ([] : List String) → lookupA "features" L = some (TomlValue.strArr ["f1"])) ∧
      (["f1"] = ([] : List String) →
        lookupA "features" L = lookupA "features" [("version", TomlValue.str "1.0")]) :=
  ⟨rfl, by decide,
    C2_table_rewrite m0 ["foo-1.0.0"] ["proj", "3rd-party"] ["proj"] "foo"
      [("version", TomlValue.str "1.0")] pkgFoo ["f1"] rfl (by decide)⟩

/-! ## Claim C8 -/

theorem fpdLoop_refines (m : Metadata) (actual : String) (nodes : List Node)
    (hall : ∀ node ∈ nodes, (packageLookup m node.id).isSome = true) :
    fpdLoop m actual nodes = firstResolvedWithName m actual nodes := by
  induction nodes with
  | nil => rfl
  | cons node rest ih =>
    have h1 := hall node (by simp)
    cases hp : packageLookup m node.id with
    | none =>
      rw [hp] at h1
      cases h1
    | some package =>
      by_cases hn : package.name = actual
      · simp [fpdLoop, firstResolvedWithName, hp, hn]
      · have ih' := ih (fun n hn' => hall n (by simp [hn']))
        simp only [fpdLoop, firstResolvedWithName, hp, hn, if_false, List.findSome?_cons]
        simpa [firstResolvedWithName, hn] using ih'

/-- C8: the name used for the graph lookup is the explicit rename when
present, else the entry key; under a well-formed graph (every node id
present in the package list) the lookup returns the first resolved package
with that name in iteration order, with that node's feature set. -/
theorem C8_lookup_first_match (m : Metadata) (r : Resolve) (dep_name : String)
    (package_name : Option String) (hres : m.resolve = some r)
    (hall : ∀ node ∈ r.nodes, (packageLookup m node.id).isSome = true) :
    find_package_for_dependency m dep_name package_name =
      firstResolvedWithName m (package_name.getD dep_name) r.nodes := by
  unfold find_package_for_dependency
  rw [hres]
  exact fpdLoop_refines m _ r.nodes hall

/-- Witness for C8 at a concrete input. -/
theorem C8_lookup_first_match_witness :
    m0.resolve = some ⟨[⟨"idroot", []⟩, ⟨"idfoo", ["f1"]⟩]⟩ ∧
    (∀ node ∈ [(⟨"idroot", []⟩ : Node), ⟨"idfoo", ["f1"]⟩],
      (packageLookup m0 node.id).isSome = true) ∧
    find_package_for_dependency m0 "foo" none =
      firstResolvedWithName m0 "foo" [⟨"idroot", []⟩, ⟨"idfoo", ["f1"]⟩] :=
  ⟨rfl, by decide,
    C8_lookup_first_match m0 ⟨[⟨"idroot", []⟩, ⟨"idfoo", ["f1"]⟩]⟩ "foo" none rfl (by decide)⟩

/-! ## Claim C4 -/

/-- C4 counterexample: the home cache root exists (but is empty) and is the
one selected; the configured override root contains the requested crate,
yet the locator fails — refuting "fails only if no candidate root yields a
match". -/
theorem C4_counterexample :
    locateCrate envCx "foo" "1.0" =
      Except.error "Crate foo:1.0 not found in Cargo registry" ∧
    hasMatch [FTree.dir "reg" [FTree.dir "foo-1.0" []]] "foo" "1.0" = true ∧
    envCx.cargo_home_registry = some [FTree.dir "reg" [FTree.dir "foo-1.0" []]] :=
  ⟨rfl, rfl, rfl⟩

theorem find_crate_source_fail_iff (root : List FTree) (n v : String) :
    (∃ e, find_crate_source root n v = Except.error e) ↔ hasMatch root n v = false := by
  unfold find_crate_source hasMatch
  cases hfind : (registryWalk root).find?
      (fun pt => pt.1.getLast? == some (n ++ "-" ++ v)) with
  | none =>
    simp only [hfind]
    constructor
    · intro _
      rw [Bool.eq_false_iff]
      intro hany
      obtain ⟨pt, hmem, hpt⟩ := List.any_eq_true.mp hany
      exact (List.find?_eq_none.mp hfind pt hmem) hpt
    · intro _
      exact ⟨_, rfl⟩
  | some pt =>
    simp only [hfind]
    constructor
    · rintro ⟨e, he⟩
      cases he
    · intro hany
      rw [Bool.eq_false_iff] at hany
      exact absurd
        (List.any_eq_true.mpr ⟨pt, List.mem_of_find?_eq_some hfind, List.find?_some hfind⟩)
        hany

/-- C4 (amended): the locator selects the first candidate cache root that
exists (home location first, then the configured override) and searches only
within that root; it fails exactly when the selected root's depth-bounded
traversal contains no directory named `{name}-{version}` — a match present
only in a later candidate root does not prevent failure. -/
theorem C4_first_existing_root (env : Env) (root : List FTree) (n v : String)
    (hsel : selectRegistry env = some root) :
    locateCrate env n v = find_crate_source root n v ∧
    ((∃ e, locateCrate env n v = Except.error e) ↔ hasMatch root n v = false) := by
  have h1 : locateCrate env n v = find_crate_source root n v := by
    unfold locateCrate
    rw [hsel]
  refine ⟨h1, ?_⟩
  rw [h1]
  exact find_crate_source_fail_iff root n v

/-- Witness for the amended C4 at a concrete input. -/
theorem C4_first_existing_root_witness :
    selectRegistry envCx = some [] ∧
    locateCrate envCx "foo" "1.0" = find_crate_source [] "foo" "1.0" ∧
    ((∃ e, locateCrate envCx "foo" "1.0" = Except.error e) ↔
      hasMatch [] "foo" "1.0" = false) :=
  ⟨rfl, (C4_first_existing_root envCx [] "foo" "1.0" rfl).1,
    (C4_first_existing_root envCx [] "foo" "1.0" rfl).2⟩

/-! ## Claim C7 -/

/-- C7: the `.bak` sidecar is created on the first rewrite, holding the
pre-rewrite on-disk content verbatim, and no later rewrite invocation — in
the same run or any subsequent one — ever changes it. -/
theorem C7_backup_created_once (m : Metadata) (p vr : List String) (st st' : FS)
    (h1 : bakExists p st = false)
    (h2 : update_single_cargo_toml m p vr st = (st', Except.ok ())) :
    lookupA p st'.baks = lookupA p st.files ∧
    ∀ qs, lookupA p (applyUpdates m vr qs st').baks = lookupA p st.files := by
  obtain ⟨d, hf, _, _, _, _, _, hA7, hA8, _, _, hA11, _⟩ :=
    update_single_ok_spec m p vr st st' h2
  have hc := hA11 h1
  refine ⟨hc, fun qs => ?_⟩
  have hps : (lookupA p st'.baks).isSome = true := hA8
  rw [applyUpdates_bak_stable m vr p qs st' hps, hc]

/-- Witness for C7 at a concrete input. -/
theorem C7_backup_created_once_witness :
    bakExists ["proj", "Cargo.toml"] st0 = false ∧
    ∃ st', update_single_cargo_toml m0 ["proj", "Cargo.toml"] ["proj", "3rd-party"] st0 =
        (st', Except.ok ()) ∧
      lookupA ["proj", "Cargo.toml"] st'.baks = lookupA ["proj", "Cargo.toml"] st0.files ∧
      ∀ qs, lookupA ["proj", "Cargo.toml"]
          (applyUpdates m0 ["proj", "3rd-party"] qs st').baks =
        lookupA ["proj", "Cargo.toml"] st0.files :=
  ⟨rfl, (update_single_cargo_toml m0 ["proj", "Cargo.toml"] ["proj", "3rd-party"] st0).1, rfl,
    C7_backup_created_once m0 ["proj", "Cargo.toml"] ["proj", "3rd-party"] st0 _ rfl rfl⟩

/-! ## Claim C10 -/

/-- C10: the backup is taken before the manifest is read and parsed, so a
parse failure still leaves the freshly created `.bak` on disk. -/
theorem C10_backup_survives_parse_failure (m : Metadata) (p vr : List String) (st : FS)
    (s : String) (h1 : bakExists p st = false)
    (h2 : lookupA p st.files = some (FileContent.raw s)) :
    update_single_cargo_toml m p vr st =
      ({ st with baks := upsert p (FileContent.raw s) st.baks },
        Except.error "Failed to parse Cargo.toml") ∧
    lookupA p ({ st with baks := upsert p (FileContent.raw s) st.baks }).baks =
      some (FileContent.raw s) := by
  constructor
  · simp [update_single_cargo_toml, rewriteManifestFile, h1, h2]
  · simp [lookupA_upsert_self]

/-- Witness for C10 at a concrete input. -/
theorem C10_backup_survives_parse_failure_witness :
    bakExists ["proj", "Cargo.toml"] stRaw = false ∧
    lookupA ["proj", "Cargo.toml"] stRaw.files = some (FileContent.raw "not toml ][") ∧
    (update_single_cargo_toml m0 ["proj", "Cargo.toml"] ["proj", "3rd-party"] stRaw =
      ({ stRaw with
          baks := upsert ["proj", "Cargo.toml"] (FileContent.raw "not toml ][") stRaw.baks },
        Except.error "Failed to parse Cargo.toml") ∧
    lookupA ["proj", "Cargo.toml"]
        ({ stRaw with
            baks := upsert ["proj", "Cargo.toml"] (FileContent.raw "not toml ][") stRaw.baks
          }).baks =
      some (FileContent.raw "not toml ][")) :=
  ⟨rfl, rfl,
    C10_backup_survives_parse_failure m0 ["proj", "Cargo.toml"] ["proj", "3rd-party"] stRaw
      "not toml ][" rfl rfl⟩

end CargoLocalize
